import Mathlib

/-!
# OmniConvertCore — structured-data transcoding subsystem, shallow embedding

This file embeds the structured-data core of `src/omni-convert.js` (the CSV
codec, the XML codec, the Markdown list-wrapping step and their helpers) as
executable Lean definitions and proves properties of the embedded code.

Modelling conventions:
* JavaScript strings are modelled as Lean `String`s, i.e. sequences of unicode
  scalar values (surrogate-pair level behaviour is out of scope).
* JavaScript numbers are modelled as exact rationals (`Rat`).  Number-to-string
  and string-to-number conversions are modelled on the decimal fragment of the
  JavaScript numeric grammar (hexadecimal, octal, binary and `Infinity` forms
  are outside the fragment exercised here); floating-point rounding is ignored,
  so decimal literals denote their exact rational value.
* A JSON value (the canonical Value Model of the spec) is the nested inductive
  `Value` below.  `Value.map` keeps entries in insertion order, mirroring a
  plain JavaScript object.
* Thrown JavaScript exceptions are modelled with `Except`.
-/

/-- The canonical value model: `Null | Bool | Number | String | List | OrderedMap`. -/
inductive Value where
  | null : Value
  | bool : Bool → Value
  | num : Rat → Value
  | str : String → Value
  | list : List Value → Value
  | map : List (String × Value) → Value

/-! ## Generic JavaScript string / value helpers -/

/-- The whitespace characters recognised by the model (the ASCII subset of the
characters trimmed by JavaScript `String.prototype.trim`). -/
def jsIsWs (c : Char) : Bool :=
  c = ' ' || c = '\t' || c = '\n' || c = '\r'

/-- Model of JavaScript `String.prototype.trim` (ASCII whitespace fragment). -/
def jsTrim (s : String) : String :=
  ⟨(s.data.dropWhile jsIsWs).reverse.dropWhile jsIsWs |>.reverse⟩

/-- Model of JavaScript `str.includes(c)` for a single-character needle. -/
def jsIncludes (s : String) (c : Char) : Bool :=
  s.data.contains c

/-- Model of `str.replace(/c/g, rep)` for a single-character pattern. -/
def jsReplaceChar (c : Char) (rep : String) (s : String) : String :=
  ⟨(s.data.map fun d => if d = c then rep.data else [d]).flatten⟩

/-- Boolean prefix test on strings (model of `String.prototype.startsWith`). -/
def jsStarts (s pre : String) : Bool :=
  pre.data.isPrefixOf s.data

/-- Model of JavaScript truthiness on `Value`s (`NaN` is outside the model). -/
def jsTruthy : Value → Bool
  | .null => false
  | .bool b => b
  | .num q => q ≠ 0
  | .str s => s ≠ ""
  | .list _ => true
  | .map _ => true

/-- Natural-number value of a digit run (most significant first). -/
def digitsVal (ds : List Char) : Nat :=
  ds.foldl (fun acc c => acc * 10 + (c.toNat - 48)) 0

/-- Digits of a natural number, most significant first. -/
def natDigits (n : Nat) : List Char :=
  (Nat.toDigits 10 n)

/-- Decimal expansion of `num / den` (proper fraction), one digit per step;
`fuel` bounds the number of emitted digits.  Exact for terminating decimal
expansions, which is the fragment the theorems below use. -/
def fracDigits (fuel : Nat) (num den : Nat) : List Char :=
  match fuel with
  | 0 => []
  | f + 1 =>
      if num = 0 then []
      else
        let d := num * 10 / den
        Char.ofNat (48 + d) :: fracDigits f (num * 10 % den) den

/-- Model of JavaScript `String(number)` on the exact-rational idealisation:
integer values print as decimal integers, other values print their decimal
expansion (exact when the expansion terminates). -/
def ratToJsString (q : Rat) : String :=
  let sign := if q < 0 then "-" else ""
  let n := q.num.natAbs
  let d := q.den
  let ip := n / d
  let rem := n % d
  if rem = 0 then sign ++ ⟨natDigits ip⟩
  else sign ++ ⟨natDigits ip⟩ ++ "." ++ ⟨fracDigits 64 rem d⟩

mutual

/-- Model of JavaScript `String(value)` on the value model: strings pass
through, booleans and numbers print, arrays join their items with `","`
(null/undefined items print as empty), plain objects print
`"[object Object]"`. -/
def jsStr : Value → String
  | .null => "null"
  | .bool b => if b then "true" else "false"
  | .num q => ratToJsString q
  | .str s => s
  | .list xs => String.intercalate "," (jsStrItems xs)
  | .map _ => "[object Object]"

/-- Item stringification inside `Array.prototype.toString`. -/
def jsStrItems : List Value → List String
  | [] => []
  | v :: rest =>
      (match v with
       | .null => ""
       | w => jsStr w) :: jsStrItems rest

end

/-! ## CSV codec — `CsvToJsonConverter.parseCSVLine` (decode side)

Embeds `parseCSVLine` (src/omni-convert.js:681-701): a single pass over the
line; `"` toggles the in-quotes flag and is never emitted; the delimiter splits
only outside quotes; every field is trimmed after accumulation. -/

/-- The tokenizer loop of `parseCSVLine`: `cur` is the accumulated current
field, `inQ` the in-quotes flag. -/
def parseLoop (d : Char) (inQ : Bool) (cur : List Char) : List Char → List String
  | [] => [jsTrim ⟨cur⟩]
  | c :: rest =>
      if c = '"' then parseLoop d (!inQ) cur rest
      else if c = d && !inQ then jsTrim ⟨cur⟩ :: parseLoop d false [] rest
      else parseLoop d inQ (cur ++ [c]) rest

/-- `CsvToJsonConverter.parseCSVLine(line)` with delimiter `d`. -/
def parseCSVLine (d : Char) (line : String) : List String :=
  parseLoop d false [] line.data

/-! ## CSV codec — `JsonToCsvConverter` (encode side) -/

/-- Stringification of one CSV cell: `String(value || '')`
(src/omni-convert.js:794).  A falsy value (null, undefined, `false`, `0`,
empty string) becomes the empty string. -/
def cellString (v : Value) : String :=
  if jsTruthy v then jsStr v else ""

/-- `JsonToCsvConverter.escapeCSVRow`'s per-cell escaping
(src/omni-convert.js:792-801): wrap in double quotes, doubling internal
quotes, exactly when the stringified cell contains the delimiter, a quote or a
newline. -/
def escapeCell (d : Char) (v : Value) : String :=
  let s := cellString v
  if jsIncludes s d || jsIncludes s '"' || jsIncludes s '\n' then
    "\"" ++ jsReplaceChar '"' "\"\"" s ++ "\""
  else s

/-- `escapeCSVRow(row)`: escape each cell and join on the delimiter. -/
def escapeCSVRow (d : Char) (row : List Value) : String :=
  String.intercalate ⟨[d]⟩ (row.map (escapeCell d))

/-- Errors thrown by `JsonToCsvConverter.convert` after JSON parsing.  The
first three are plain `Error`s whose messages the spec's taxonomy groups as
`UnsupportedStructure` ("JSON must be an array of objects or arrays",
"JSON array is empty", "Unsupported JSON structure. Expected array of objects
or array of arrays."); `typeError` models a native `TypeError` raised by
property access on `null`/missing methods. -/
inductive CsvErr where
  | notArray : CsvErr
  | emptyArray : CsvErr
  | unsupported : CsvErr
  | typeError : CsvErr
deriving DecidableEq

/-- Does this error belong to the spec's `UnsupportedStructure` kind? -/
def CsvErr.isUS : CsvErr → Bool
  | .notArray => true
  | .emptyArray => true
  | .unsupported => true
  | .typeError => false

/-- A canonical array-index key: decimal digits with no superfluous leading
zero (`"0"`, `"7"`, `"12"`, but not `"007"`), as JavaScript array/string
indexing requires. -/
def canonIndex (key : String) : Option Nat :=
  match key.data with
  | [] => none
  | d :: ds =>
      if (d :: ds).all Char.isDigit && !(d = '0' && ds ≠ []) then
        some (digitsVal (d :: ds))
      else none

/-- JavaScript property read `row[key]`: `none` models `undefined`,
`Except.error` a thrown `TypeError` (property access on `null`).  Arrays
expose canonical numeric indices, strings expose `length` and canonical
indices; other data properties of exotic receivers are outside the model. -/
def jsGetProp : Value → String → Except CsvErr (Option Value)
  | .null, _ => .error .typeError
  | .map es, key => .ok ((es.find? (fun p => p.1 = key)).map Prod.snd)
  | .list xs, key =>
      .ok (match canonIndex key with
           | some i => xs.get? i
           | none => none)
  | .str s, key =>
      .ok (if key = "length" then some (.num s.length)
           else match canonIndex key with
                | some i => (s.data.get? i).map (fun c => .str ⟨[c]⟩)
                | none => none)
  | .num _, _ => .ok none
  | .bool _, _ => .ok none

/-- `headers.map(header => row[header] || '')` with exception propagation:
collect the looked-up cell values left to right (`none`, i.e. `undefined`,
becomes null — both stringify to the empty cell). -/
def rowCells (row : Value) : List String → Except CsvErr (List Value)
  | [] => .ok []
  | h :: rest => do
      let p ← jsGetProp row h
      let tail ← rowCells row rest
      pure (p.getD .null :: tail)

/-- One data row in the array-of-objects branch
(src/omni-convert.js:764-767): look every header up in the row and escape the
resulting cells (`row[header] || ''` makes missing/falsy cells empty). -/
def csvObjectRow (d : Char) (headers : List String) (row : Value) :
    Except CsvErr String :=
  (rowCells row headers).map (escapeCSVRow d)

/-- The row loop of the array-of-objects branch. -/
def csvObjectRows (d : Char) (headers : List String) :
    List Value → Except CsvErr String
  | [] => .ok ""
  | row :: rest => do
      let line ← csvObjectRow d headers row
      let tail ← csvObjectRows d headers rest
      pure (line ++ "\n" ++ tail)

/-- The row loop of the array-of-arrays branch (src/omni-convert.js:770-774):
`row.map` throws a `TypeError` when the row is not an array. -/
def csvArrayRows (d : Char) : List Value → Except CsvErr String
  | [] => .ok ""
  | .list cells :: rest => do
      let tail ← csvArrayRows d rest
      pure (escapeCSVRow d cells ++ "\n" ++ tail)
  | _ :: _ => .error .typeError

/-- Configuration of `JsonToCsvConverter` (delimiter, includeHeader). -/
structure CsvCfg where
  delimiter : Char := ','
  includeHeader : Bool := true

/-- The structure-dependent core of `JsonToCsvConverter.convert`
(src/omni-convert.js:746-777), after JSON parsing:

* not an array → `Error` ("JSON must be an array of objects or arrays");
* empty array → `Error` ("JSON array is empty");
* first element a non-null object that is not an array → the array-of-objects
  branch keyed on `Object.keys` of the first element (`Object.keys(null)`
  throws a `TypeError`, so a `null` first element is dispatched here and
  throws);
* first element an array → the array-of-arrays branch;
* otherwise → `Error` ("Unsupported JSON structure ..."). -/
def jsonToCsv (cfg : CsvCfg) (v : Value) : Except CsvErr String :=
  match v with
  | .list [] => .error .emptyArray
  | .list (first :: rest) =>
      (match first with
       | .map es =>
           let headers := es.map Prod.fst
           let headerLine :=
             if cfg.includeHeader then
               escapeCSVRow cfg.delimiter (headers.map Value.str) ++ "\n"
             else ""
           (csvObjectRows cfg.delimiter headers (.map es :: rest)).map
             (fun body => headerLine ++ body)
       | .list cells => csvArrayRows cfg.delimiter (.list cells :: rest)
       | .null => .error .typeError
       | _ => .error .unsupported)
  | _ => .error .notArray

/-! ## XML codec — `JsonToXmlConverter` (encode side) -/

/-- Characters the sanitizer keeps: the regex class `[a-zA-Z0-9\-_\.]`
(src/omni-convert.js:1242). -/
def nameCharOk (c : Char) : Bool :=
  c.isAlpha || c.isDigit || c = '-' || c = '_' || c = '.'

/-- Characters a name may start with: the regex class `[a-zA-Z_]`. -/
def nameStartOk (c : Char) : Bool :=
  c.isAlpha || c = '_'

/-- Model of `name.replace(/[^a-zA-Z0-9\-_\.]/g, '_')`: every character
outside the class becomes an underscore. -/
def replaceBadChars : List Char → List Char
  | [] => []
  | c :: rest => (if nameCharOk c then c else '_') :: replaceBadChars rest

/-- Model of `.replace(/^[^a-zA-Z_]/, '_')`: the anchored single-character
pattern replaces the first character (when it is outside `[a-zA-Z_]`) by an
underscore. -/
def replaceBadStart : List Char → List Char
  | [] => []
  | c :: rest => (if nameStartOk c then c else '_') :: rest

/-- `JsonToXmlConverter.sanitizeElementName` (src/omni-convert.js:1240-1243):
the two regex replacements in sequence. -/
def sanitizeElementName (name : String) : String :=
  ⟨replaceBadStart (replaceBadChars name.data)⟩

/-- `JsonToXmlConverter.sanitizeAttributeName` (src/omni-convert.js:1245-1248)
is the same transformation. -/
def sanitizeAttributeName (name : String) : String :=
  sanitizeElementName name

/-- `JsonToXmlConverter.escapeXml` (src/omni-convert.js:1250-1257): the five
global replacements in source order, ampersand first. -/
def escapeXml (text : String) : String :=
  jsReplaceChar '\'' "&apos;"
    (jsReplaceChar '"' "&quot;"
      (jsReplaceChar '>' "&gt;"
        (jsReplaceChar '<' "&lt;"
          (jsReplaceChar '&' "&amp;" text))))

/-- Configuration of `JsonToXmlConverter` (constructor defaults,
src/omni-convert.js:1078-1084). -/
structure XmlEncCfg where
  rootElementName : String := "root"
  attrMark : String := "@"
  textNodeName : String := "#text"
  arrayElementName : String := "item"
  prettyPrint : Bool := true
  xmlDeclaration : Bool := true
  encoding : String := "UTF-8"

/-- The default `JsonToXmlConverter` configuration. -/
def defEnc : XmlEncCfg := {}

/-- `'  '.repeat(indent)` when pretty-printing, else empty. -/
def indentStr (cfg : XmlEncCfg) (n : Nat) : String :=
  if cfg.prettyPrint then ⟨List.replicate (2 * n) ' '⟩ else ""

/-- `'\n'` when pretty-printing, else empty. -/
def nlStr (cfg : XmlEncCfg) : String :=
  if cfg.prettyPrint then "\n" else ""

/-- The element produced by `primitiveToXml` without indentation/newline:
a self-closing tag for null, otherwise a tag holding the escaped
stringification (src/omni-convert.js:1228-1238). -/
def primCore (_cfg : XmlEncCfg) (v : Value) (name : String) : String :=
  match v with
  | .null => "<" ++ sanitizeElementName name ++ "/>"
  | w =>
      "<" ++ sanitizeElementName name ++ ">" ++ escapeXml (jsStr w) ++
        "</" ++ sanitizeElementName name ++ ">"

/-- `JsonToXmlConverter.primitiveToXml`. -/
def primToXml (cfg : XmlEncCfg) (v : Value) (name : String) (ind : Nat) :
    String :=
  indentStr cfg ind ++ primCore cfg v name ++ nlStr cfg

mutual

/-- The element produced by `objectToXml` without its leading indentation and
trailing newline: `objectToXml(obj, name, ind) = indentStr ++ objCore ++ nl`
(src/omni-convert.js:1159-1210; the factoring is presentational only). -/
def objCore (cfg : XmlEncCfg) (es : List (String × Value)) (name : String)
    (ind : Nat) : String :=
  let st := objBody cfg ind es
  let base := "<" ++ sanitizeElementName name ++ st.1
  if st.2.1 = "" && !st.2.2 then base ++ "/>"
  else
    base ++ ">" ++
      (if st.2.2 then st.2.1
       else nlStr cfg ++ st.2.1 ++ indentStr cfg ind) ++
      "</" ++ sanitizeElementName name ++ ">"

/-- The property loop of `objectToXml` (src/omni-convert.js:1169-1188),
returning `(attributes, content, hasTextContent)`.  A key starting with the
attribute marker appends an attribute; a key equal to the text-node name
*overwrites* the accumulated content and sets the flag; any other key appends
a child element at `ind + 1`. -/
def objBody (cfg : XmlEncCfg) (ind : Nat) :
    List (String × Value) → String × String × Bool
  | [] => ("", "", false)
  | (key, value) :: rest =>
      if jsStarts key cfg.attrMark then
        let a := " " ++ sanitizeAttributeName (⟨key.data.drop cfg.attrMark.length⟩) ++
          "=\"" ++ escapeXml (jsStr value) ++ "\""
        let st := objBody cfg ind rest
        (a ++ st.1, st.2.1, st.2.2)
      else if key = cfg.textNodeName then
        let st := objBody cfg ind rest
        (st.1, escapeXml (jsStr value) ++ st.2.1, true)
      else
        let piece := entryToXml cfg value key (ind + 1)
        let st := objBody cfg ind rest
        (st.1, piece ++ st.2.1, st.2.2)

/-- Dispatch for one child entry (the if/else chain at
src/omni-convert.js:1180-1186): arrays via `arrayToXml`, non-null objects via
`objectToXml`, everything else via `primitiveToXml`. -/
def entryToXml (cfg : XmlEncCfg) (value : Value) (key : String) (ind : Nat) :
    String :=
  match value with
  | .list xs => arrayToXml cfg xs key ind
  | .map es => indentStr cfg ind ++ objCore cfg es key ind ++ nlStr cfg
  | v => primToXml cfg v key ind

/-- `JsonToXmlConverter.arrayToXml` (src/omni-convert.js:1212-1226): each item
is encoded at the same element name; nested arrays recurse at the configured
array-element name. -/
def arrayToXml (cfg : XmlEncCfg) (items : List Value) (name : String)
    (ind : Nat) : String :=
  match items with
  | [] => ""
  | item :: rest =>
      (match item with
       | .list xs => arrayToXml cfg xs cfg.arrayElementName ind
       | .map es => indentStr cfg ind ++ objCore cfg es name ind ++ nlStr cfg
       | v => primToXml cfg v name ind) ++ arrayToXml cfg rest name ind

end

/-- `objectToXml` proper: indentation, core element, newline. -/
def objectToXml (cfg : XmlEncCfg) (es : List (String × Value)) (name : String)
    (ind : Nat) : String :=
  indentStr cfg ind ++ objCore cfg es name ind ++ nlStr cfg

/-- `Object.entries(value)` as used by the single-root-key path of
`jsonToXml`: entries of a map, indexed entries of an array, indexed characters
of a string, no entries for numbers/booleans, and a thrown `TypeError` for
`null` (`Object.entries(null)` throws). -/
def entriesView : Value → Option (List (String × Value))
  | .null => none
  | .map es => some es
  | .list xs => some ((xs.enum.map fun p => (toString p.1, p.2)))
  | .str s => some ((s.data.enum.map fun p => (toString p.1, Value.str ⟨[p.2]⟩)))
  | .num _ => some []
  | .bool _ => some []

/-- The XML declaration emitted by `jsonToXml` when enabled. -/
def xmlDeclOf (cfg : XmlEncCfg) : String :=
  if cfg.xmlDeclaration then
    "<?xml version=\"1.0\" encoding=\"" ++ cfg.encoding ++ "\"?>\n"
  else ""

/-- `JsonToXmlConverter.jsonToXml` (src/omni-convert.js:1114-1157): the root
dispatch.  A root object with exactly one key is encoded via `objectToXml`
applied to the key's *value* (throwing a `TypeError` when that value is null,
since `Object.entries(null)` throws); with more than one key the configured
root name is used, overridden to `"data"` when it is the default `"root"`;
with zero keys the wrapper is named `"empty"`; a root array uses the root
name; a root primitive uses the root name, overridden to `"value"` when
default. -/
def jsonToXml (cfg : XmlEncCfg) (v : Value) : Except Unit String :=
  let decl := xmlDeclOf cfg
  match v with
  | .map [(k, inner)] =>
      (match entriesView inner with
       | none => .error ()
       | some ies => .ok (decl ++ objectToXml cfg ies k 0))
  | .map [] => .ok (decl ++ objectToXml cfg [] "empty" 0)
  | .map es =>
      let root := if cfg.rootElementName = "root" then "data" else cfg.rootElementName
      .ok (decl ++ objectToXml cfg es root 0)
  | .list xs => .ok (decl ++ arrayToXml cfg xs cfg.rootElementName 0)
  | prim =>
      let root := if cfg.rootElementName = "root" then "value" else cfg.rootElementName
      .ok (decl ++ primToXml cfg prim root 0)

/-! ## XML codec — `XmlToJsonConverter` (decode side) -/

/-- Configuration of `XmlToJsonConverter` (constructor defaults,
src/omni-convert.js:810-814). -/
structure XmlDecCfg where
  attrMark : String := "@"
  textNodeName : String := "#text"
  ignoreAttributes : Bool := false
  parseNumbers : Bool := true
  parseBooleans : Bool := true

/-- The default `XmlToJsonConverter` configuration. -/
def defDec : XmlDecCfg := {}

/-- Parse an optional sign; returns the sign as `1` or `-1` and the rest. -/
def scanSign : List Char → Int × List Char
  | '+' :: rest => (1, rest)
  | '-' :: rest => (-1, rest)
  | cs => (1, cs)

/-- Parse a decimal literal prefix (sign, digits, optional fraction, optional
exponent) of a character list, returning its exact rational value and the
unconsumed rest; `none` when no digits are found.  This models the decimal
fragment of the grammar shared by `Number(...)` and `parseFloat(...)`; an
incomplete exponent (`"12e"`) is not consumed, as in `parseFloat`. -/
def scanDecimal (cs : List Char) : Option (Rat × List Char) :=
  let (sg, cs1) := scanSign cs
  let ipart := cs1.takeWhile Char.isDigit
  let cs2 := cs1.dropWhile Char.isDigit
  let (fpart, cs3) :=
    match cs2 with
    | '.' :: rest => (rest.takeWhile Char.isDigit, rest.dropWhile Char.isDigit)
    | _ => ([], cs2)
  if ipart = [] && fpart = [] then none
  else
    let mant : Rat := (digitsVal ipart : Rat) + (digitsVal fpart : Rat) / ((10 : Rat) ^ fpart.length)
    let (expo, cs4) :=
      match cs3 with
      | e :: rest =>
          if e = 'e' || e = 'E' then
            let (esg, r1) := scanSign rest
            let edig := r1.takeWhile Char.isDigit
            if edig = [] then ((0 : Int), cs3)
            else (esg * (digitsVal edig : Int), r1.dropWhile Char.isDigit)
          else ((0 : Int), cs3)
      | [] => ((0 : Int), cs3)
    let scaled : Rat :=
      if 0 ≤ expo then mant * (10 : Rat) ^ expo.toNat
      else mant / (10 : Rat) ^ (-expo).toNat
    some ((sg : Rat) * scaled, cs4)

/-- Model of `Number(string)` restricted to the decimal fragment: trim; empty
becomes `0`; otherwise the whole string must be a decimal literal.  `none`
models `NaN`. -/
def jsToNumber (s : String) : Option Rat :=
  let t := (jsTrim s).data
  if t = [] then some 0
  else
    match scanDecimal t with
    | some (q, []) => some q
    | _ => none

/-- Model of `parseFloat(string)` restricted to the decimal fragment: skip
leading whitespace, parse the longest decimal-literal prefix.  `none` models
`NaN`. -/
def jsParseFloatOpt (s : String) : Option Rat :=
  (scanDecimal (s.data.dropWhile jsIsWs)).map Prod.fst

/-- The numeric guard of `parseValue`
(`!isNaN(value) && !isNaN(parseFloat(value))`, src/omni-convert.js:910). -/
def jsNumericOk (s : String) : Bool :=
  (jsToNumber s).isSome && (jsParseFloatOpt s).isSome

/-- Model of `value.toLowerCase()` (ASCII fragment). -/
def jsLower (s : String) : String :=
  ⟨s.data.map Char.toLower⟩

/-- `XmlToJsonConverter.parseValue` (src/omni-convert.js:897-916): optional
boolean coercion of case-insensitive `true`/`false`, then optional numeric
coercion via `parseFloat`, else the string unchanged. -/
def jsParseValue (cfg : XmlDecCfg) (value : String) : Value :=
  if !cfg.parseNumbers && !cfg.parseBooleans then .str value
  else if cfg.parseBooleans && jsLower value = "true" then .bool true
  else if cfg.parseBooleans && jsLower value = "false" then .bool false
  else if cfg.parseNumbers && jsNumericOk value then
    .num ((jsParseFloatOpt value).getD 0)
  else .str value

/-- The parsed XML tree: a node is a text run or an element with a name, an
ordered attribute list and ordered children (the spec's `XmlElement`
intermediate, §3). -/
inductive XmlNode where
  | text : String → XmlNode
  | elem : String → List (String × String) → List XmlNode → XmlNode

/-- Lookup in the ordered result map (`result[key]`, read). -/
def jsGet (acc : List (String × Value)) (key : String) : Option Value :=
  (acc.find? (fun p => p.1 = key)).map Prod.snd

/-- Assignment into the ordered result map (`result[key] = v`): overwrite in
place when the key exists, append otherwise. -/
def jsSet (acc : List (String × Value)) (key : String) (v : Value) :
    List (String × Value) :=
  if (acc.find? (fun p => p.1 = key)).isSome then
    acc.map (fun p => if p.1 = key then (key, v) else p)
  else acc ++ [(key, v)]

/-- The attribute pass of `xmlToJson` (src/omni-convert.js:854-859): unless
attributes are ignored, each attribute is stored under the marker-prefixed
name with coercion applied. -/
def attrPass (cfg : XmlDecCfg) (attrs : List (String × String)) :
    List (String × Value) :=
  if cfg.ignoreAttributes then []
  else attrs.foldl (fun acc p => jsSet acc (cfg.attrMark ++ p.1) (jsParseValue cfg p.2)) []

mutual

/-- The child loop of `xmlToJson` (src/omni-convert.js:862-892) together with
its final empty-check (line 894): a non-whitespace text run met while the
result is still empty *returns* the coerced text immediately (dropping any
remaining children); later text is stored under the text-node name; a child
element is stored under its name, with truthy same-name folding into a list;
at the end, an empty result decodes to null. -/
def childLoop (cfg : XmlDecCfg) (acc : List (String × Value)) :
    List XmlNode → Value
  | [] => if acc.isEmpty then .null else .map acc
  | .text s :: rest =>
      let t := jsTrim s
      if t ≠ "" then
        if acc.isEmpty then jsParseValue cfg t
        else childLoop cfg (jsSet acc cfg.textNodeName (jsParseValue cfg t)) rest
      else childLoop cfg acc rest
  | .elem n a c :: rest =>
      let childVal := xmlElemToJson cfg n a c
      let acc' :=
        match jsGet acc n with
        | some old =>
            if jsTruthy old then
              match old with
              | .list xs => jsSet acc n (.list (xs ++ [childVal]))
              | _ => jsSet acc n (.list [old, childVal])
            else jsSet acc n childVal
        | none => jsSet acc n childVal
      childLoop cfg acc' rest

/-- `XmlToJsonConverter.xmlToJson` applied to an element node with the given
name, attributes and children (the node's own name is not used by the
function; the parent stores the result under it). -/
def xmlElemToJson (cfg : XmlDecCfg) (_name : String)
    (attrs : List (String × String)) (children : List XmlNode) : Value :=
  childLoop cfg (attrPass cfg attrs) children

end

/-! ## XML text parsing (host `DOMParser`)

Modelled from the spec: the repository delegates XML text parsing to the
host's `DOMParser` (src/omni-convert.js:824-831), which is not part of the
repository's source; the spec (§3) describes the parsing intermediate as
`XmlElement`: name, ordered attribute list, ordered children (text runs or
nested elements).  The recursive-descent parser below produces exactly that
intermediate for well-formed documents of the kind this file reasons about
(the five predefined entities are decoded; DTDs, namespaces, comments, CDATA
and processing instructions other than the XML declaration are outside the
fragment). -/

/-- Length of `dropWhile` never exceeds the input length. -/
theorem dropWhile_len_le (p : Char → Bool) (l : List Char) :
    (l.dropWhile p).length ≤ l.length := by
  induction l with
  | nil => simp
  | cons c rest ih =>
      by_cases h : p c
      · simp [List.dropWhile, h]; omega
      · simp [List.dropWhile, h]

/-- Decode the five predefined XML entities in a character run. -/
def entityDecode : List Char → List Char
  | [] => []
  | c :: rest =>
      if c = '&' then
        if ['a', 'm', 'p', ';'].isPrefixOf rest then '&' :: entityDecode (rest.drop 4)
        else if ['l', 't', ';'].isPrefixOf rest then '<' :: entityDecode (rest.drop 3)
        else if ['g', 't', ';'].isPrefixOf rest then '>' :: entityDecode (rest.drop 3)
        else if ['q', 'u', 'o', 't', ';'].isPrefixOf rest then '"' :: entityDecode (rest.drop 5)
        else if ['a', 'p', 'o', 's', ';'].isPrefixOf rest then '\'' :: entityDecode (rest.drop 5)
        else c :: entityDecode rest
      else c :: entityDecode rest
termination_by cs => cs.length
decreasing_by
  all_goals simp [List.length_drop]
  all_goals omega

/-- May a character appear in a scanned element name? -/
def tagNameOk (c : Char) : Bool :=
  !(jsIsWs c || c = '/' || c = '>' || c = '=' || c = '"' || c = '<')

/-- Parse the attribute list of an open tag, up to and including the closing
`>` or `/>`; returns the attributes, whether the tag was self-closing, and
the unconsumed rest (strictly shorter than the input). -/
def parseAttrs (cs : List Char) :
    Option ((List (String × String) × Bool) × {r : List Char // r.length < cs.length}) :=
  let cs1 := cs.dropWhile jsIsWs
  have h1 : cs1.length ≤ cs.length := dropWhile_len_le _ _
  match h2 : cs1 with
  | '/' :: '>' :: r =>
      some (([], true), ⟨r, by simp at h1; omega⟩)
  | '>' :: r =>
      some (([], false), ⟨r, by simp at h1; omega⟩)
  | c :: rest =>
      let nm := cs1.takeWhile tagNameOk
      if hnm : nm = [] then none
      else
        have hnm1 : (cs1.dropWhile tagNameOk).length < cs1.length := by
          rw [h2]
          cases hq : tagNameOk c with
          | false =>
              exfalso; apply hnm; simp [nm, h2, List.takeWhile, hq]
          | true =>
              simp [List.dropWhile, hq]
              have := dropWhile_len_le tagNameOk rest; omega
        match h3 : cs1.dropWhile tagNameOk with
        | '=' :: '"' :: vrest =>
            let v := vrest.takeWhile (fun d => d ≠ '"')
            have hv : (vrest.dropWhile (fun d => d ≠ '"')).length ≤ vrest.length :=
              dropWhile_len_le _ _
            match h4 : vrest.dropWhile (fun d => d ≠ '"') with
            | '"' :: r2 =>
                have hr2 : r2.length < cs.length := by
                  rw [h4] at hv; simp at hv
                  rw [h3, h2] at hnm1; simp at hnm1
                  simp only [List.length_cons] at h1
                  omega
                match parseAttrs r2 with
                | none => none
                | some ((attrs, selfClose), ⟨r3, hr3⟩) =>
                    some (((⟨nm⟩, ⟨entityDecode v⟩) :: attrs, selfClose),
                      ⟨r3, by omega⟩)
            | _ => none
        | _ => none
  | [] => none
termination_by cs.length
decreasing_by simp; omega

/-- Is this character not the tag-open marker `<`? -/
def notTagOpen (d : Char) : Bool :=
  !(d = '<')

mutual

/-- Parse one element starting at `<`: name, attributes, then either a
self-closing tag or children followed by the matching close tag. -/
def parseElement (cs : List Char) :
    Option (XmlNode × {r : List Char // r.length < cs.length}) :=
  match cs with
  | '<' :: rest =>
      let nm := rest.takeWhile tagNameOk
      if hnm : nm = [] then none
      else
        have hAfter : (rest.dropWhile tagNameOk).length ≤ rest.length :=
          dropWhile_len_le _ _
        match parseAttrs (rest.dropWhile tagNameOk) with
        | none => none
        | some ((attrs, true), ⟨r, hr⟩) =>
            some (.elem ⟨nm⟩ attrs [], ⟨r, by simp only [List.length_cons]; omega⟩)
        | some ((attrs, false), ⟨r, hr⟩) =>
            match parseNodes r with
            | none => none
            | some (children, ⟨r2, hr2⟩) =>
                match h4 : r2 with
                | '<' :: '/' :: r3 =>
                    let cl := r3.takeWhile tagNameOk
                    if cl = nm then
                      match h5 : r3.dropWhile tagNameOk with
                      | '>' :: r4 =>
                          have h6 : (r3.dropWhile tagNameOk).length ≤ r3.length :=
                            dropWhile_len_le _ _
                          some (.elem ⟨nm⟩ attrs children,
                            ⟨r4, by
                              rw [h5] at h6
                              simp only [List.length_cons] at h6 hr2 ⊢
                              omega⟩)
                      | _ => none
                    else none
                | _ => none
  | _ => none
termination_by (cs.length, 0)
decreasing_by
  · apply Prod.Lex.left
    simp only [List.length_cons] at *
    omega

/-- Parse a run of child nodes (text runs and elements) up to a closing-tag
marker `</` (which is left unconsumed). -/
def parseNodes (cs : List Char) :
    Option (List XmlNode × {r : List Char // r.length ≤ cs.length}) :=
  match cs with
  | [] => none
  | c :: rest =>
      if hc : c = '<' then
        if rest.head? = some '/' then some ([], ⟨c :: rest, le_refl _⟩)
        else
          match parseElement (c :: rest) with
          | none => none
          | some (nd, ⟨r, hr⟩) =>
              match parseNodes r with
              | none => none
              | some (nds, ⟨r2, hr2⟩) =>
                  some (nd :: nds, ⟨r2, by simp only [List.length_cons] at hr ⊢; omega⟩)
      else
        let run := (c :: rest).takeWhile notTagOpen
        have hrun : ((c :: rest).dropWhile notTagOpen).length < (c :: rest).length := by
          simp only [List.dropWhile, notTagOpen, hc]
          have := dropWhile_len_le notTagOpen rest
          simp only [List.length_cons, notTagOpen] at this ⊢
          simp [hc]
          omega
        match parseNodes ((c :: rest).dropWhile notTagOpen) with
        | none => none
        | some (nds, ⟨r2, hr2⟩) =>
            some (.text ⟨entityDecode run⟩ :: nds,
              ⟨r2, by simp only [List.length_cons] at hrun ⊢; omega⟩)
termination_by (cs.length, 1)
decreasing_by
  · apply Prod.Lex.right
    omega
  · apply Prod.Lex.left
    simp only [List.length_cons] at *
    omega
  · apply Prod.Lex.left
    simp only [List.length_cons] at *
    omega

end

/-- Skip an XML declaration / processing instruction: drop everything up to
and including the first `?>`. -/
def dropDecl : List Char → List Char
  | [] => []
  | '?' :: '>' :: rest => rest
  | _ :: rest => dropDecl rest

/-- Parse a whole document: optional XML declaration, whitespace, one root
element, trailing whitespace. -/
def parseDoc (s : String) : Option XmlNode :=
  let cs := s.data
  let cs1 := if ['<', '?'].isPrefixOf cs then dropDecl cs else cs
  let cs2 := cs1.dropWhile jsIsWs
  match parseElement cs2 with
  | some (nd, ⟨rest, _⟩) => if rest.all jsIsWs then some nd else none
  | none => none

/-- The decode pipeline of `XmlToJsonConverter.convert`
(src/omni-convert.js:824-833): parse the text and apply `xmlToJson` to the
*document element* (the root element itself, so its name is not part of the
result). -/
def xmlDecodeText (cfg : XmlDecCfg) (s : String) : Option Value :=
  match parseDoc s with
  | some (.elem n a c) => some (xmlElemToJson cfg n a c)
  | _ => none

/-- JSON → XML → JSON round trip under the default configurations
(`jsonToXml` then `DOMParser`+`xmlToJson`); `none` when either direction
fails. -/
def xmlRoundTrip (v : Value) : Option Value :=
  match jsonToXml defEnc v with
  | .ok s => xmlDecodeText defDec s
  | .error _ => none

/-! ## Markdown renderer — the list-wrapping step

Embeds the two substitutions at src/omni-convert.js:992-994:
`html.replace(/(<li>.*<\/li>)/s, '<ul>$1</ul>')` and then the same pattern
wrapped in `<ol>`.  Each is a single (non-global) replacement; with the `s`
flag the greedy `.*` makes the leftmost-longest match run from the *first*
`<li>` in the document to the *last* `</li>` after it, newlines included. -/

/-- Index of the first occurrence of `pat` as a sublist, if any. -/
def firstIdx (pat : List Char) : List Char → Option Nat
  | [] => if pat = [] then some 0 else none
  | c :: rest =>
      if pat.isPrefixOf (c :: rest) then some 0
      else (firstIdx pat rest).map (· + 1)

/-- Index of the last occurrence of `pat` as a sublist, if any. -/
def lastIdx (pat : List Char) : List Char → Option Nat
  | [] => if pat = [] then some 0 else none
  | c :: rest =>
      match lastIdx pat rest with
      | some j => some (j + 1)
      | none => if pat.isPrefixOf (c :: rest) then some 0 else none

/-- The characters of `<li>`. -/
def liOpen : List Char := ['<', 'l', 'i', '>']

/-- The characters of `</li>`. -/
def liClose : List Char := ['<', '/', 'l', 'i', '>']

/-- One non-global replacement of `/(<li>.*<\/li>)/s` by
`open ++ $1 ++ close`: if a first `<li>` and a last `</li>` ending after it
exist, wrap that whole span; otherwise return the string unchanged. -/
def wrapOnce (opn cls : String) (s : String) : String :=
  let cs := s.data
  match firstIdx liOpen cs, lastIdx liClose cs with
  | some i, some j =>
      if i + 4 ≤ j then
        ⟨cs.take i ++ opn.data ++ (cs.drop i).take (j + 5 - i) ++ cls.data ++ cs.drop (j + 5)⟩
      else s
  | _, _ => s

/-- The wrap-in-`<ul>`/`<ol>` step of `markdownToHtml`
(src/omni-convert.js:992-994): the `<ul>` replacement, then the `<ol>`
replacement on its output. -/
def wrapLists (s : String) : String :=
  wrapOnce "<ol>" "</ol>" (wrapOnce "<ul>" "</ul>" s)

/-! ## Theorems — name sanitization (C6, C7) -/

/-- Per-character action of the first sanitizer regex. -/
def keepOk (c : Char) : Char :=
  if nameCharOk c then c else '_'

theorem replaceBadChars_eq_map (l : List Char) :
    replaceBadChars l = l.map keepOk := by
  induction l with
  | nil => rfl
  | cons c rest ih => simp [replaceBadChars, keepOk, ih]

theorem nameCharOk_keepOk (c : Char) : nameCharOk (keepOk c) = true := by
  unfold keepOk
  by_cases h : nameCharOk c
  · simp [h]
  · simp [h]; decide

theorem keepOk_of_ok {c : Char} (h : nameCharOk c = true) : keepOk c = c := by
  simp [keepOk, h]

/-- C6 counterexample: on `"1a"` the sanitizer *replaces* the leading digit
(yielding `"_a"`); it does not insert an underscore in front of it (which
would yield `"_1a"`). -/
theorem sanitize_replaces_first_char :
    sanitizeElementName "1a" = "_a" ∧ sanitizeElementName "1a" ≠ "_1a" := by
  constructor
  · decide
  · decide

/-- C6 (amended): sanitization maps every character outside
`[A-Za-z0-9._-]` to an underscore, and then *replaces* (not inserts before)
the first character by an underscore when it is not a letter or underscore;
in particular the output always has the same length as the input. -/
theorem sanitize_characterization (s : String) :
    (sanitizeElementName s).length = s.length ∧
    (sanitizeElementName s).data =
      (match s.data.map keepOk with
       | [] => []
       | c :: cs => (if nameStartOk c then c else '_') :: cs) := by
  have hd : (sanitizeElementName s).data =
      (match s.data.map keepOk with
       | [] => []
       | c :: cs => (if nameStartOk c then c else '_') :: cs) := by
    show (replaceBadStart (replaceBadChars s.data)) = _
    rw [replaceBadChars_eq_map]
    cases h : s.data.map keepOk with
    | nil => simp [replaceBadStart, h]
    | cons c cs => simp [replaceBadStart, h]
  refine ⟨?_, hd⟩
  show (sanitizeElementName s).data.length = s.data.length
  rw [hd]
  cases h : s.data.map keepOk with
  | nil => simpa using (congrArg List.length h).symm
  | cons c cs =>
      have := congrArg List.length h
      simp at this
      simp [this]

theorem keepOk_keepOk (d : Char) : keepOk (keepOk d) = keepOk d :=
  keepOk_of_ok (nameCharOk_keepOk d)

/-- C7: sanitization is idempotent. -/
theorem sanitize_idempotent (s : String) :
    sanitizeElementName (sanitizeElementName s) = sanitizeElementName s := by
  have hchars : ∀ l : List Char,
      replaceBadChars (replaceBadStart (replaceBadChars l)) =
        replaceBadStart (replaceBadChars l) := by
    intro l
    simp only [replaceBadChars_eq_map]
    cases l with
    | nil => rfl
    | cons c rest =>
        simp only [List.map_cons, replaceBadStart, List.map_map]
        have h1 : keepOk (if nameStartOk (keepOk c) then keepOk c else '_') =
            (if nameStartOk (keepOk c) then keepOk c else '_') := by
          by_cases h : nameStartOk (keepOk c)
          · simp [h, keepOk_keepOk]
          · simp [h]; decide
        by_cases h : nameStartOk (keepOk c)
        · simp only [h, if_true, List.map_cons]
          rw [keepOk_keepOk]
          congr 1
          exact List.map_congr_left (fun d _ => keepOk_keepOk d)
        · simp only [h, if_false, List.map_cons, Bool.false_eq_true]
          rw [show keepOk '_' = '_' from by decide]
          congr 1
          exact List.map_congr_left (fun d _ => keepOk_keepOk d)
  have hstart : ∀ l : List Char,
      replaceBadStart (replaceBadStart l) = replaceBadStart l := by
    intro l
    cases l with
    | nil => rfl
    | cons c rest =>
        simp only [replaceBadStart]
        by_cases h : nameStartOk c
        · simp [h]
        · simp [h, replaceBadStart]
  apply String.ext
  show replaceBadStart (replaceBadChars (replaceBadStart (replaceBadChars s.data))) =
    replaceBadStart (replaceBadChars s.data)
  rw [hchars, hstart]

/-! ## Theorems — CSV cell escaping and line tokenizing (C3, C4, C10) -/

/-- The quoting condition as the spec words it: the stringified cell contains
the delimiter, a double quote, or a newline. -/
def specNeedsQuote (d : Char) (s : String) : Bool :=
  s.data.contains d || s.data.contains '"' || s.data.contains '\n'

/-- Doubling of internal quotes as the spec words it. -/
def specDoubleQuotes (s : String) : String :=
  ⟨(s.data.map (fun c => if c = '"' then ['"', '"'] else [c])).flatten⟩

/-- C3 counterexample: the falsy number `0` is emitted as the empty cell,
not as its stringification `"0"` (`String(value || '')` discards all falsy
values, not only null/undefined). -/
theorem escapeCell_falsy_not_stringified :
    escapeCell ',' (Value.num 0) = "" ∧ jsStr (Value.num 0) = "0" ∧
      escapeCell ',' (Value.bool false) = "" ∧ jsStr (Value.bool false) = "false" := by
  refine ⟨by decide, by decide, by decide, by decide⟩

/-- C3 (amended): the emitted cell is wrapped in double quotes with internal
quotes doubled exactly when the stringified value contains the delimiter, a
quote or a newline; truthy non-string values are stringified with JavaScript
`String(...)`, while *all falsy* values (null, undefined, `false`, `0`, the
empty string) become the empty string. -/
theorem escapeCell_characterization (d : Char) (v : Value) :
    escapeCell d v =
      (if specNeedsQuote d (cellString v) then
        "\"" ++ specDoubleQuotes (cellString v) ++ "\""
      else cellString v) ∧
    cellString v = (if jsTruthy v then jsStr v else "") := by
  constructor
  · rfl
  · rfl

/-- Characters surviving `jsTrim` come from the input. -/
theorem mem_of_mem_jsTrim {a : Char} {l : List Char} (h : a ∈ (jsTrim ⟨l⟩).data) :
    a ∈ l := by
  simp only [jsTrim, List.mem_reverse] at h
  exact (List.dropWhile_sublist _).mem ((List.mem_reverse).1 ((List.dropWhile_sublist _).mem h))

/-- No field produced by the tokenizer loop contains a double quote, as long
as the accumulated field has none. -/
theorem parseLoop_no_quote (d : Char) :
    ∀ (cs : List Char) (inQ : Bool) (cur : List Char), '"' ∉ cur →
      ∀ f ∈ parseLoop d inQ cur cs, '"' ∉ f.data := by
  intro cs
  induction cs with
  | nil =>
      intro inQ cur hcur f hf
      simp only [parseLoop, List.mem_singleton] at hf
      subst hf
      exact fun hmem => hcur (mem_of_mem_jsTrim hmem)
  | cons c rest ih =>
      intro inQ cur hcur f hf
      simp only [parseLoop] at hf
      by_cases h1 : c = '"'
      · rw [if_pos h1] at hf
        exact ih _ _ hcur f hf
      · rw [if_neg h1] at hf
        by_cases h2 : (c = d && !inQ) = true
        · rw [if_pos h2] at hf
          rcases List.mem_cons.1 hf with h | h
          · subst h
            exact fun hmem => hcur (mem_of_mem_jsTrim hmem)
          · exact ih _ _ (by simp) f h
        · rw [if_neg h2] at hf
          refine ih _ _ ?_ f hf
          intro hmem
          rcases List.mem_append.1 hmem with h | h
          · exact hcur h
          · simp at h; exact h1 h.symm

/-- C10: every field produced by `parseCSVLine` is quote-free — quote
characters only toggle the in-quotes flag and are never appended — and a
doubled quote inside a quoted span is removed rather than unescaped
(`"a""b"` tokenizes to the field `ab`). -/
theorem parseCSVLine_no_quotes :
    (∀ (d : Char) (line : String), ∀ f ∈ parseCSVLine d line, '"' ∉ f.data) ∧
      parseCSVLine ',' "\"a\"\"b\",c" = ["ab", "c"] := by
  constructor
  · intro d line f hf
    exact parseLoop_no_quote d line.data false [] (by simp) f hf
  · rfl

/-- Witness for `parseCSVLine_no_quotes`. -/
theorem parseCSVLine_no_quotes_witness : '"' ∉ ("ab" : String).data :=
  parseCSVLine_no_quotes.1 ',' "\"a\"\"b\",c" "ab" (by decide)

/-- C4 counterexample: a cell containing a double quote does *not* round
trip: the encoder doubles the quote, but the tokenizer drops quote characters
instead of unescaping them, so `a"b` comes back as `ab`. -/
theorem csv_quote_cell_not_restored :
    parseCSVLine ',' (escapeCell ',' (.str "a\"b")) = ["ab"] ∧
      parseCSVLine ',' (escapeCell ',' (.str "a\"b")) ≠ ["a\"b"] := by
  constructor
  · rfl
  · decide

/-- Inside a quoted span every quote-free character accumulates into the
current field. -/
theorem parseLoop_quoted_run (d : Char) :
    ∀ (cs : List Char) (cur : List Char) (tail : List Char), '"' ∉ cs →
      parseLoop d true cur (cs ++ tail) = parseLoop d true (cur ++ cs) tail := by
  intro cs
  induction cs with
  | nil => intro cur tail _; simp
  | cons c rest ih =>
      intro cur tail hq
      have hc : ¬(c = '"') := fun h => hq (h ▸ List.mem_cons_self c rest)
      simp only [List.cons_append, parseLoop, if_neg hc, Bool.not_true, Bool.and_false,
        Bool.false_eq_true, if_false]
      show parseLoop d true (cur ++ [c]) (rest ++ tail) = _
      rw [ih (cur ++ [c]) tail (fun h => hq (List.mem_cons_of_mem c h))]
      simp

/-- `jsReplaceChar` is the identity when the pattern character is absent. -/
theorem jsReplaceChar_absent (c : Char) (rep : String) (s : String)
    (h : c ∉ s.data) : jsReplaceChar c rep s = s := by
  apply String.ext
  show (s.data.map fun d => if d = c then rep.data else [d]).flatten = s.data
  have aux : ∀ l : List Char, c ∉ l →
      (l.map fun d => if d = c then rep.data else [d]).flatten = l := by
    intro l
    induction l with
    | nil => intro _; rfl
    | cons a t ih =>
        intro hl
        have ha : ¬(a = c) := fun hh => hl (hh ▸ List.mem_cons_self a t)
        simp only [List.map_cons, List.flatten_cons, if_neg ha, List.singleton_append]
        rw [ih (fun hm => hl (List.mem_cons_of_mem a hm))]
  exact aux s.data h

/-- C4 (amended): a *quote-free* cell that contains the delimiter or a
newline and carries no leading/trailing whitespace round-trips unchanged
through `escapeCell` and `parseCSVLine`.  (Cells containing quotes lose them
— see the counterexample — and surrounding whitespace is trimmed away by the
tokenizer.) -/
theorem csv_cell_roundtrip (d : Char) (s : String)
    (hq : '"' ∉ s.data) (ht : jsTrim s = s) (hd : d ∈ s.data ∨ '\n' ∈ s.data) :
    parseCSVLine d (escapeCell d (.str s)) = [s] := by
  have hne : s ≠ "" := by
    intro h
    subst h
    rcases hd with h | h <;> simp at h
  have htruthy : jsTruthy (.str s) = true := by simp [jsTruthy, hne]
  have hcell : cellString (.str s) = s := by
    simp [cellString, htruthy, jsStr]
  have hcontains : (jsIncludes s d || jsIncludes s '"' || jsIncludes s '\n') = true := by
    simp [jsIncludes]
    tauto
  have hesc : escapeCell d (.str s) = "\"" ++ s ++ "\"" := by
    unfold escapeCell
    simp only [hcell, hcontains, if_true]
    rw [jsReplaceChar_absent _ _ _ hq]
  rw [hesc]
  unfold parseCSVLine
  have hdata : ("\"" ++ s ++ "\"").data = '"' :: (s.data ++ ['"']) := by
    simp
  rw [hdata]
  have step1 : parseLoop d false [] ('"' :: (s.data ++ ['"'])) =
      parseLoop d true [] (s.data ++ ['"']) := by
    simp [parseLoop]
  rw [step1, parseLoop_quoted_run d s.data [] ['"'] hq]
  have step2 : parseLoop d true ([] ++ s.data) ['"'] = [jsTrim ⟨s.data⟩] := by
    simp [parseLoop]
  rw [step2]
  have heta : (⟨s.data⟩ : String) = s := rfl
  rw [heta, ht]

/-- Witness for `csv_cell_roundtrip`. -/
theorem csv_cell_roundtrip_witness :
    parseCSVLine ',' (escapeCell ',' (.str "a,b")) = ["a,b"] :=
  csv_cell_roundtrip ',' "a,b" (by decide) (by decide) (by decide)

/-! ## Theorems — Markdown list wrapping (C8) -/

/-- C8 counterexample: with two separate list runs, the single wrapping pass
does *not* wrap only the first run — the greedy dot spans from the first
`<li>` to the last `</li>`, swallowing the separating text, and the second
(`<ol>`) substitution then nests inside the first. -/
theorem wrapLists_spans_separate_lists :
    wrapLists "<li>a</li>x<li>b</li>" = "<ul><ol><li>a</li>x<li>b</li></ol></ul>" ∧
      wrapLists "<li>a</li>x<li>b</li>" ≠ "<ul><li>a</li></ul>x<li>b</li>" := by
  constructor
  · rfl
  · decide

theorem firstIdx_shift {pat : List Char} (c : Char) (rest : List Char)
    (h : ¬ pat.isPrefixOf (c :: rest)) :
    firstIdx pat (c :: rest) = (firstIdx pat rest).map (· + 1) := by
  simp [firstIdx, h]

theorem firstIdx_at_start {pat : List Char} (rest : List Char) (h : pat ≠ []) :
    firstIdx pat (pat ++ rest) = some 0 := by
  cases hp : pat with
  | nil => exact absurd hp h
  | cons c t =>
      have : (c :: t).isPrefixOf ((c :: t) ++ rest) := by
        simp [List.isPrefixOf_iff_prefix]
      simp [firstIdx, hp ▸ this]

theorem firstIdx_clean_append (pat t : List Char) (a : List Char)
    (rest : List Char) (hpat : pat = '<' :: t) (ha : ∀ ch ∈ a, ch ≠ '<') :
    firstIdx pat (a ++ rest) = (firstIdx pat rest).map (· + a.length) := by
  induction a with
  | nil => simp
  | cons c a' ih =>
      have hc : c ≠ '<' := ha c (List.mem_cons_self c a')
      have hnp : ¬ pat.isPrefixOf (c :: (a' ++ rest)) := by
        rw [hpat]
        simp [List.isPrefixOf]
        intro h; exact absurd h.symm hc
      rw [List.cons_append, firstIdx_shift c _ hnp,
        ih (fun ch hm => ha ch (List.mem_cons_of_mem c hm))]
      cases firstIdx pat rest with
      | none => simp
      | some j => simp; omega

theorem lastIdx_shift {pat : List Char} (c : Char) (rest : List Char) (j : Nat)
    (h : lastIdx pat rest = some j) :
    lastIdx pat (c :: rest) = some (j + 1) := by
  simp [lastIdx, h]

theorem lastIdx_append_shift {pat : List Char} (a rest : List Char) (j : Nat)
    (h : lastIdx pat rest = some j) :
    lastIdx pat (a ++ rest) = some (j + a.length) := by
  induction a with
  | nil => simpa using h
  | cons c a' ih =>
      rw [List.cons_append, lastIdx_shift c _ _ ih]
      simp; omega

theorem lastIdx_none_clean (pat t : List Char) (l : List Char)
    (hpat : pat = '<' :: t) (hl : ∀ ch ∈ l, ch ≠ '<') :
    lastIdx pat l = none := by
  induction l with
  | nil => simp [lastIdx, hpat]
  | cons c l' ih =>
      have hc : c ≠ '<' := hl c (List.mem_cons_self c l')
      have hnp : ¬ pat.isPrefixOf (c :: l') := by
        rw [hpat]
        simp [List.isPrefixOf]
        intro h; exact absurd h.symm hc
      simp [lastIdx, ih (fun ch hm => hl ch (List.mem_cons_of_mem c hm)), hnp]

theorem lastIdx_cons_none {pat : List Char} (c : Char) (rest : List Char)
    (h1 : lastIdx pat rest = none) (h2 : ¬ pat.isPrefixOf (c :: rest)) :
    lastIdx pat (c :: rest) = none := by
  simp [lastIdx, h1, h2]

theorem lastIdx_at_start {pat : List Char} (c : Char) (t rest : List Char)
    (hp : pat = c :: t) (h : lastIdx pat (t ++ rest) = none) :
    lastIdx pat (pat ++ rest) = some 0 := by
  subst hp
  have hpre : (c :: t).isPrefixOf ((c :: t) ++ rest) := by
    simp [List.isPrefixOf_iff_prefix]
  simp [lastIdx, h, hpre]

/-- Evaluating one `wrapOnce` replacement on a string decomposed around its
match span: if the first `<li>` starts exactly at `A.length` and the last
`</li>` ends exactly at `A.length + B.length`, the span `B` gets wrapped. -/
theorem wrapOnce_decomp (opn cls : String) (A B C : List Char)
    (hfirst : firstIdx liOpen (A ++ B ++ C) = some A.length)
    (hlast : lastIdx liClose (A ++ B ++ C) = some (A.length + B.length - 5))
    (hlen : 9 ≤ B.length) :
    wrapOnce opn cls ⟨A ++ B ++ C⟩ = ⟨A ++ opn.data ++ B ++ cls.data ++ C⟩ := by
  unfold wrapOnce
  simp only [hfirst, hlast]
  rw [if_pos (by omega)]
  congr 1
  have htake : (A ++ B ++ C).take A.length = A := by
    rw [List.append_assoc, List.take_left]
  have hdrop : (A ++ B ++ C).drop A.length = B ++ C := by
    rw [List.append_assoc, List.drop_left]
  have hspan : ((A ++ B ++ C).drop A.length).take (A.length + B.length - 5 + 5 - A.length) = B := by
    rw [hdrop, show A.length + B.length - 5 + 5 - A.length = B.length from by omega,
      List.take_left]
  have hdrop2 : (A ++ B ++ C).drop (A.length + B.length - 5 + 5) = C := by
    rw [show A.length + B.length - 5 + 5 = (A ++ B).length from by simp; omega,
      List.drop_left]
  rw [htake, hspan, hdrop2]

/-- C8 (amended): the wrap step is a single non-global replacement whose
greedy pattern spans from the *first* `<li>` to the *last* `</li>` of the
whole document (newlines and any intervening text included), and the second
(`<ol>`) substitution then wraps the same span again inside the first, so a
document `p <li> mid </li> q` (with `p`, `q` free of `<`, `mid` arbitrary —
in particular it may hold several separate list runs) becomes
`p <ul><ol><li> mid </li></ol></ul> q` rather than having only its first run
wrapped. -/
theorem wrapLists_greedy_span (p mid q : List Char)
    (hp : ∀ ch ∈ p, ch ≠ '<') (hq : ∀ ch ∈ q, ch ≠ '<') :
    wrapLists ⟨p ++ (liOpen ++ mid ++ liClose) ++ q⟩ =
      ⟨p ++ ("<ul><ol>".data ++ (liOpen ++ mid ++ liClose) ++ "</ol></ul>".data) ++ q⟩ := by
  have hclose_tail : ∀ X : List Char, lastIdx liClose X = none →
      lastIdx liClose ('/' :: 'l' :: 'i' :: '>' :: X) = none := by
    intro X hX
    refine lastIdx_cons_none _ _ (lastIdx_cons_none _ _ (lastIdx_cons_none _ _
      (lastIdx_cons_none _ _ hX ?_) ?_) ?_) ?_ <;> simp [liClose, List.isPrefixOf]
  have hq_none : lastIdx liClose q = none := lastIdx_none_clean liClose _ q rfl hq
  have hulq_none : lastIdx liClose ("</ul>".data ++ q) = none := by
    show lastIdx liClose ('<' :: '/' :: 'u' :: 'l' :: '>' :: q) = none
    refine lastIdx_cons_none _ _ (lastIdx_cons_none _ _ (lastIdx_cons_none _ _
      (lastIdx_cons_none _ _ (lastIdx_cons_none _ _ hq_none ?_) ?_) ?_) ?_) ?_ <;>
      simp [liClose, List.isPrefixOf]
  -- first replacement: <ul> around the whole greedy span
  have h1 : wrapOnce "<ul>" "</ul>" ⟨p ++ (liOpen ++ mid ++ liClose) ++ q⟩ =
      ⟨p ++ "<ul>".data ++ (liOpen ++ mid ++ liClose) ++ "</ul>".data ++ q⟩ := by
    have hfirst : firstIdx liOpen (p ++ (liOpen ++ mid ++ liClose) ++ q) = some p.length := by
      have e1 := firstIdx_clean_append liOpen _ p ((liOpen ++ mid ++ liClose) ++ q) rfl hp
      have e2 : (liOpen ++ mid ++ liClose) ++ q = liOpen ++ (mid ++ liClose ++ q) := by
        simp [List.append_assoc]
      rw [List.append_assoc, e1, e2, firstIdx_at_start _ (by simp [liOpen])]
      simp
    have hlast : lastIdx liClose (p ++ (liOpen ++ mid ++ liClose) ++ q) =
        some (p.length + (liOpen ++ mid ++ liClose).length - 5) := by
      have hstart : lastIdx liClose (liClose ++ q) = some 0 :=
        lastIdx_at_start '<' _ q rfl (hclose_tail q hq_none)
      have e3 := lastIdx_append_shift (p ++ (liOpen ++ mid)) (liClose ++ q) 0 hstart
      rw [show (p ++ (liOpen ++ mid)) ++ (liClose ++ q) =
        p ++ (liOpen ++ mid ++ liClose) ++ q by simp [List.append_assoc]] at e3
      rw [e3]
      simp [liOpen, liClose]
      omega
    exact wrapOnce_decomp "<ul>" "</ul>" p (liOpen ++ mid ++ liClose) q hfirst hlast
      (by simp [liOpen, liClose])
  -- second replacement: <ol> nested inside the first
  have h2 : wrapOnce "<ol>" "</ol>"
      ⟨(p ++ "<ul>".data) ++ (liOpen ++ mid ++ liClose) ++ ("</ul>".data ++ q)⟩ =
      ⟨(p ++ "<ul>".data) ++ "<ol>".data ++ (liOpen ++ mid ++ liClose) ++ "</ol>".data ++
        ("</ul>".data ++ q)⟩ := by
    have hfirst : firstIdx liOpen
        ((p ++ "<ul>".data) ++ (liOpen ++ mid ++ liClose) ++ ("</ul>".data ++ q)) =
        some (p ++ "<ul>".data).length := by
      have e1 := firstIdx_clean_append liOpen _ p
        ("<ul>".data ++ ((liOpen ++ mid ++ liClose) ++ ("</ul>".data ++ q))) rfl hp
      have e0 : (p ++ "<ul>".data) ++ (liOpen ++ mid ++ liClose) ++ ("</ul>".data ++ q) =
          p ++ ("<ul>".data ++ ((liOpen ++ mid ++ liClose) ++ ("</ul>".data ++ q))) := by
        simp [List.append_assoc]
      rw [e0, e1]
      have e2 : "<ul>".data ++ ((liOpen ++ mid ++ liClose) ++ ("</ul>".data ++ q)) =
          '<' :: 'u' :: 'l' :: '>' :: (liOpen ++ (mid ++ liClose ++ ("</ul>".data ++ q))) := by
        simp [List.append_assoc]
      rw [e2]
      rw [firstIdx_shift _ _ (by simp [liOpen, List.isPrefixOf])]
      rw [firstIdx_shift _ _ (by simp [liOpen, List.isPrefixOf])]
      rw [firstIdx_shift _ _ (by simp [liOpen, List.isPrefixOf])]
      rw [firstIdx_shift _ _ (by simp [liOpen, List.isPrefixOf])]
      rw [firstIdx_at_start _ (by simp [liOpen])]
      simp
      omega
    have hlast : lastIdx liClose
        ((p ++ "<ul>".data) ++ (liOpen ++ mid ++ liClose) ++ ("</ul>".data ++ q)) =
        some ((p ++ "<ul>".data).length + (liOpen ++ mid ++ liClose).length - 5) := by
      have hstart : lastIdx liClose (liClose ++ ("</ul>".data ++ q)) = some 0 :=
        lastIdx_at_start '<' _ _ rfl (hclose_tail _ hulq_none)
      have e3 := lastIdx_append_shift ((p ++ "<ul>".data) ++ (liOpen ++ mid))
        (liClose ++ ("</ul>".data ++ q)) 0 hstart
      rw [show ((p ++ "<ul>".data) ++ (liOpen ++ mid)) ++ (liClose ++ ("</ul>".data ++ q)) =
        (p ++ "<ul>".data) ++ (liOpen ++ mid ++ liClose) ++ ("</ul>".data ++ q) by
        simp [List.append_assoc]] at e3
      rw [e3]
      simp [liOpen, liClose]
      omega
    exact wrapOnce_decomp "<ol>" "</ol>" (p ++ "<ul>".data) (liOpen ++ mid ++ liClose)
      ("</ul>".data ++ q) hfirst hlast (by simp [liOpen, liClose])
  show wrapOnce "<ol>" "</ol>" (wrapOnce "<ul>" "</ul>" _) = _
  rw [h1]
  rw [show (⟨p ++ "<ul>".data ++ (liOpen ++ mid ++ liClose) ++ "</ul>".data ++ q⟩ : String) =
    ⟨(p ++ "<ul>".data) ++ (liOpen ++ mid ++ liClose) ++ ("</ul>".data ++ q)⟩ by
    congr 1; simp [List.append_assoc]]
  rw [h2]
  congr 1
  simp [List.append_assoc]

/-- Witness for `wrapLists_greedy_span`. -/
theorem wrapLists_greedy_span_witness :
    wrapLists ⟨"A ".data ++ (liOpen ++ "a</li>x<li>b".data ++ liClose) ++ " B".data⟩ =
      ⟨"A ".data ++ ("<ul><ol>".data ++ (liOpen ++ "a</li>x<li>b".data ++ liClose) ++
        "</ol></ul>".data) ++ " B".data⟩ :=
  wrapLists_greedy_span "A ".data "a</li>x<li>b".data " B".data (by decide) (by decide)

/-! ## Theorems — CSV encode failure modes (C2) -/

/-- Did the conversion fail with an `UnsupportedStructure`-kind error? -/
def isUSResult : Except CsvErr String → Bool
  | .error e => e.isUS
  | .ok _ => false

/-- The shape condition of the *amended* claim: not a list, an empty list, or
a first element that is a string, number or boolean scalar. -/
def csvUnsupportedShape : Value → Bool
  | .list [] => true
  | .list (first :: _) =>
      (match first with
       | .str _ => true
       | .num _ => true
       | .bool _ => true
       | _ => false)
  | _ => true

theorem jsGetProp_error {v : Value} {k : String} {e : CsvErr}
    (h : jsGetProp v k = .error e) : e = .typeError := by
  cases v <;> simp [jsGetProp] at h
  exact h.symm

theorem rowCells_error {row : Value} {hs : List String} {e : CsvErr}
    (h : rowCells row hs = .error e) : e = .typeError := by
  induction hs with
  | nil => simp [rowCells] at h
  | cons hd rest ih =>
      simp only [rowCells, bind, Except.bind] at h
      cases hg : jsGetProp row hd with
      | error e2 =>
          rw [hg] at h
          simp at h
          subst h
          exact jsGetProp_error hg
      | ok p =>
          rw [hg] at h
          simp at h
          cases hr : rowCells row rest with
          | error e3 =>
              rw [hr] at h
              simp at h
              subst h
              exact ih hr
          | ok tail =>
              rw [hr] at h
              simp [pure, Except.pure] at h

theorem csvObjectRows_not_us (d : Char) (hs : List String) (rows : List Value) :
    isUSResult (csvObjectRows d hs rows) = false := by
  induction rows with
  | nil => rfl
  | cons row rest ih =>
      simp only [csvObjectRows, bind, Except.bind]
      cases hr : csvObjectRow d hs row with
      | error e =>
          have he : e = .typeError := by
            unfold csvObjectRow at hr
            cases hc : rowCells row hs with
            | error e2 =>
                rw [hc] at hr
                simp [Except.map] at hr
                rw [← hr]
                exact rowCells_error hc
            | ok cells => rw [hc] at hr; simp [Except.map] at hr
          simp [isUSResult, he, CsvErr.isUS]
      | ok line =>
          cases ht : csvObjectRows d hs rest with
          | error e2 =>
              rw [ht] at ih
              simpa [isUSResult] using ih
          | ok body => rfl

theorem csvArrayRows_not_us (d : Char) (rows : List Value) :
    isUSResult (csvArrayRows d rows) = false := by
  induction rows with
  | nil => rfl
  | cons row rest ih =>
      cases row <;> simp only [csvArrayRows, bind, Except.bind] <;>
        try simp [isUSResult, CsvErr.isUS]
      case list cells =>
        cases ht : csvArrayRows d rest with
        | error e2 =>
            rw [ht] at ih
            simpa [isUSResult] using ih
        | ok body => rfl

/-- C2 counterexample: a mixed list whose first element is a map and whose
second is a list does *not* fail — the array-of-objects branch is chosen from
the first element alone and the list row is emitted as empty cells. -/
theorem jsonToCsv_mixed_kinds_ok :
    jsonToCsv {} (.list [.map [("a", .num 1)], .list [.num 2, .num 3]]) =
      .ok "a\n1\n\n" := by
  rfl

/-- C2 (amended): CSV encode fails with an `UnsupportedStructure`-kind error
exactly when the input is not a list, is an empty list, or its *first*
element is a string, number or boolean.  Mixed element kinds after the first
are not detected by the structure check: with a map first element non-map
rows are encoded as rows of empty cells (and a null row throws a
`TypeError`); with a list first element a non-list row throws a `TypeError`;
a null first element throws a `TypeError` rather than the unsupported-structure
error. -/
theorem jsonToCsv_unsupported_iff (cfg : CsvCfg) (v : Value) :
    isUSResult (jsonToCsv cfg v) = csvUnsupportedShape v := by
  cases v with
  | null => rfl
  | bool b => rfl
  | num q => rfl
  | str s => rfl
  | map es => rfl
  | list xs =>
      cases xs with
      | nil => rfl
      | cons first rest =>
          cases first with
          | null => rfl
          | bool b => rfl
          | num q => rfl
          | str s => rfl
          | map es =>
              show isUSResult ((csvObjectRows cfg.delimiter (es.map Prod.fst)
                (.map es :: rest)).map _) = false
              cases hr : csvObjectRows cfg.delimiter (es.map Prod.fst) (.map es :: rest) with
              | error e =>
                  have := csvObjectRows_not_us cfg.delimiter (es.map Prod.fst)
                    (.map es :: rest)
                  rw [hr] at this
                  simpa [isUSResult, Except.map] using this
              | ok body => simp [isUSResult, Except.map, hr]
          | list cells =>
              show isUSResult (csvArrayRows cfg.delimiter (.list cells :: rest)) = false
              exact csvArrayRows_not_us cfg.delimiter (.list cells :: rest)

/-! ## Theorems — JSON→XML root-element naming (C5) -/

/-- Did the conversion succeed with an output starting with this prefix? -/
def okStarts (r : Except Unit String) (p : String) : Bool :=
  match r with
  | .ok s => jsStarts s p
  | .error _ => false

/-- The encoder configuration with a chosen root element name and all other
options left at their defaults. -/
def cfgWithRoot (r : String) : XmlEncCfg :=
  { rootElementName := r }

theorem jsStarts_append (a b : String) : jsStarts (a ++ b) a = true := by
  simp [jsStarts, List.isPrefixOf_iff_prefix]

theorem objCore_head (cfg : XmlEncCfg) (es : List (String × Value)) (name : String)
    (ind : Nat) : ∃ t, objCore cfg es name ind = "<" ++ sanitizeElementName name ++ t := by
  unfold objCore
  by_cases h : ((objBody cfg ind es).2.1 = "" && !(objBody cfg ind es).2.2) = true
  · refine ⟨(objBody cfg ind es).1 ++ "/>", ?_⟩
    simp only [h, if_true]
    apply String.ext
    simp
  · refine ⟨(objBody cfg ind es).1 ++ ">" ++
      (if (objBody cfg ind es).2.2 then (objBody cfg ind es).2.1
       else nlStr cfg ++ (objBody cfg ind es).2.1 ++ indentStr cfg ind) ++
      "</" ++ sanitizeElementName name ++ ">", ?_⟩
    simp only [h, if_false]
    apply String.ext
    simp

theorem objectToXml_starts (cfg : XmlEncCfg) (es : List (String × Value))
    (name : String) (decl : String)
    (hind : indentStr cfg 0 = "") :
    jsStarts (decl ++ objectToXml cfg es name 0) (decl ++ "<" ++ sanitizeElementName name) = true := by
  obtain ⟨t, ht⟩ := objCore_head cfg es name 0
  unfold objectToXml
  rw [hind, ht]
  have : decl ++ ("" ++ ("<" ++ sanitizeElementName name ++ t) ++ nlStr cfg) =
      (decl ++ "<" ++ sanitizeElementName name) ++ (t ++ nlStr cfg) := by
    apply String.ext
    simp
  rw [this]
  exact jsStarts_append _ _

/-- C5 counterexample: a single-key root map whose value is `null` does not
produce a root element named after the key — `Object.entries(null)` throws a
`TypeError` and the encoder fails entirely. -/
theorem jsonToXml_single_null_throws :
    jsonToXml defEnc (.map [("x", Value.null)]) = .error () := rfl

/-- C5 (amended): at the document root, a map with exactly one key whose
value is not null is encoded with that key as the root element name whatever
root name is configured; with two or more keys the configured root name is
used, overridden to `"data"` when left at the default `"root"`; with zero
keys the wrapper is named `"empty"` (ignoring the configured name).  A
single-key map with a null value instead throws a `TypeError` (see the
counterexample). -/
theorem jsonToXml_root_naming (r k : String) (v : Value) (e1 e2 : String × Value)
    (es : List (String × Value)) :
    (v ≠ .null →
      okStarts (jsonToXml (cfgWithRoot r) (.map [(k, v)]))
        (xmlDeclOf defEnc ++ "<" ++ sanitizeElementName k) = true) ∧
    okStarts (jsonToXml (cfgWithRoot r) (.map (e1 :: e2 :: es)))
      (xmlDeclOf defEnc ++ "<" ++ sanitizeElementName (if r = "root" then "data" else r)) = true ∧
    jsonToXml (cfgWithRoot r) (.map []) = .ok (xmlDeclOf defEnc ++ "<empty/>" ++ "\n") := by
  have hind : indentStr (cfgWithRoot r) 0 = "" := rfl
  have hdecl : xmlDeclOf (cfgWithRoot r) = xmlDeclOf defEnc := rfl
  refine ⟨?_, ?_, ?_⟩
  · intro hv
    cases v with
    | null => exact absurd rfl hv
    | bool b =>
        show okStarts (.ok (xmlDeclOf (cfgWithRoot r) ++ objectToXml (cfgWithRoot r) [] k 0)) _ = true
        rw [hdecl]
        exact objectToXml_starts _ _ _ _ hind
    | num q =>
        show okStarts (.ok (xmlDeclOf (cfgWithRoot r) ++ objectToXml (cfgWithRoot r) [] k 0)) _ = true
        rw [hdecl]
        exact objectToXml_starts _ _ _ _ hind
    | str s =>
        show okStarts (.ok (xmlDeclOf (cfgWithRoot r) ++ objectToXml (cfgWithRoot r)
          ((s.data.enum.map fun p => (toString p.1, Value.str ⟨[p.2]⟩))) k 0)) _ = true
        rw [hdecl]
        exact objectToXml_starts _ _ _ _ hind
    | list xs =>
        show okStarts (.ok (xmlDeclOf (cfgWithRoot r) ++ objectToXml (cfgWithRoot r)
          ((xs.enum.map fun p => (toString p.1, p.2))) k 0)) _ = true
        rw [hdecl]
        exact objectToXml_starts _ _ _ _ hind
    | map ies =>
        show okStarts (.ok (xmlDeclOf (cfgWithRoot r) ++ objectToXml (cfgWithRoot r) ies k 0)) _ = true
        rw [hdecl]
        exact objectToXml_starts _ _ _ _ hind
  · show okStarts (.ok (xmlDeclOf (cfgWithRoot r) ++ objectToXml (cfgWithRoot r) (e1 :: e2 :: es)
      (if (cfgWithRoot r).rootElementName = "root" then "data" else (cfgWithRoot r).rootElementName) 0)) _ = true
    rw [hdecl]
    exact objectToXml_starts _ _ _ _ hind
  · show Except.ok (xmlDeclOf (cfgWithRoot r) ++ objectToXml (cfgWithRoot r) [] "empty" 0) = _
    rw [hdecl]
    have hbody : objBody (cfgWithRoot r) 0 [] = ("", "", false) := by
      simp [objBody]
    have hobj : objectToXml (cfgWithRoot r) [] "empty" 0 = "<empty/>" ++ "\n" := by
      unfold objectToXml objCore
      rw [hbody, hind]
      simp [nlStr, cfgWithRoot]
      try (apply String.ext; simp [show sanitizeElementName "empty" = "empty" from rfl])
    rw [hobj]
    exact congrArg Except.ok (by apply String.ext; simp)

/-- Witness for `jsonToXml_root_naming`. -/
theorem jsonToXml_root_naming_witness :
    okStarts (jsonToXml (cfgWithRoot "cfg") (.map [("user", .str "hi")]))
      (xmlDeclOf defEnc ++ "<" ++ sanitizeElementName "user") = true ∧
    okStarts (jsonToXml (cfgWithRoot "cfg") (.map [("a", .num 1), ("b", .num 2)]))
      (xmlDeclOf defEnc ++ "<" ++ sanitizeElementName (if "cfg" = "root" then "data" else "cfg")) = true :=
  have h := jsonToXml_root_naming "cfg" "user" (.str "hi") ("a", .num 1) ("b", .num 2) []
  ⟨h.1 (by simp), h.2.1⟩

/-! ## Theorems — XML decode text short-circuit (C9) -/

theorem attrPass_nil (cfg : XmlDecCfg) : attrPass cfg [] = [] := by
  unfold attrPass
  cases cfg.ignoreAttributes <;> rfl

/-- C9 counterexample: the short-circuit fires even when the element *does*
carry children beyond the text — a leading non-whitespace text run makes the
decoder return the coerced scalar immediately and the following `<c>` child
element is discarded. -/
theorem xmlToJson_shortcircuit_drops_children :
    xmlElemToJson defDec "e" [] [.text "hi", .elem "c" [] [.text "1"]] = .str "hi" := by
  have h1 : jsTrim "hi" = "hi" := rfl
  have h2 : jsParseValue defDec "hi" = .str "hi" := rfl
  simp +decide [xmlElemToJson, attrPass_nil, childLoop, h1, h2]

/-- C9 (amended): when an element has no recorded attributes, a child text
run with non-whitespace content encountered *before any other child was
recorded* makes the whole decoded value the coerced scalar text, and every
remaining child (text or element) is discarded; the short-circuit is not
limited to elements whose only content is text. -/
theorem xmlToJson_text_shortcircuit (cfg : XmlDecCfg) (name : String) (s : String)
    (rest : List XmlNode) (h : jsTrim s ≠ "") :
    xmlElemToJson cfg name [] (.text s :: rest) = jsParseValue cfg (jsTrim s) := by
  simp [xmlElemToJson, attrPass_nil, childLoop, h]

/-- Witness for `xmlToJson_text_shortcircuit`. -/
theorem xmlToJson_text_shortcircuit_witness :
    xmlElemToJson defDec "row" [] [.text " 42 ", .elem "kid" [] []] =
      jsParseValue defDec (jsTrim " 42 ") :=
  xmlToJson_text_shortcircuit defDec "row" " 42 " [.elem "kid" [] []] (by decide)

/-! ## Theorems — XML round trip (C1)

The round-trippable fragment: maps nested to any depth whose keys are
sanitization-invariant and whose leaves are null or scalars that reprint and
re-coerce to themselves under the default configurations. -/

/-- No XML-special character (so `escapeXml` and entity decoding are the
identity and a text run never terminates early). -/
def specialFree (s : String) : Bool :=
  s.data.all (fun c => !(c = '&' || c = '<' || c = '>' || c = '"' || c = '\''))

/-- A scalar whose printed text survives the decoder: nonempty, trim-
invariant, special-free, and re-coerced by `parseValue` to the same scalar. -/
def scalarOkB : Value → Bool
  | .str s =>
      s ≠ "" && jsTrim s == s && specialFree s &&
        (match jsParseValue defDec s with | .str t => t == s | _ => false)
  | .num q =>
      ratToJsString q ≠ "" && jsTrim (ratToJsString q) == ratToJsString q &&
        specialFree (ratToJsString q) &&
        (match jsParseValue defDec (ratToJsString q) with | .num p => p == q | _ => false)
  | .bool b =>
      (match jsParseValue defDec (jsStr (.bool b)) with | .bool c => c == b | _ => false)
  | _ => false

/-- A key the encoder emits verbatim and the decoder reads back: nonempty and
fixed by sanitization (hence free of `@`, `#`, whitespace and XML specials). -/
def safeKeyB (k : String) : Bool :=
  k ≠ "" && sanitizeElementName k == k

/-- The round-trippable fragment of the value model. -/
inductive RTVal : Value → Prop where
  | null : RTVal .null
  | str (s : String) : scalarOkB (.str s) = true → RTVal (.str s)
  | num (q : Rat) : scalarOkB (.num q) = true → RTVal (.num q)
  | bool (b : Bool) : scalarOkB (.bool b) = true → RTVal (.bool b)
  | map (es : List (String × Value)) :
      es ≠ [] →
      (es.map Prod.fst).Nodup →
      (∀ p ∈ es, safeKeyB p.1 = true) →
      (∀ p ∈ es, RTVal p.2) →
      RTVal (.map es)

theorem fixed_head_ok (c : Char)
    (h : c = (if nameStartOk (keepOk c) then keepOk c else '_')) :
    nameCharOk c = true ∧ nameStartOk c = true := by
  by_cases hok : nameCharOk c
  · rw [keepOk_of_ok hok] at h
    by_cases hs : nameStartOk c
    · exact ⟨hok, hs⟩
    · rw [if_neg hs] at h
      subst h
      exact absurd (by decide : nameStartOk '_' = true) hs
  · have hk : keepOk c = '_' := by simp [keepOk, hok]
    rw [hk] at h
    have : c = '_' := by
      by_cases hs : nameStartOk '_'
      · rwa [if_pos hs] at h
      · rwa [if_neg hs] at h
    subst this
    exact absurd (by decide : nameCharOk '_' = true) hok

theorem list_map_fix {α : Type} {f : α → α} :
    ∀ (l : List α), l = l.map f → ∀ d ∈ l, f d = d := by
  intro l
  induction l with
  | nil => intro _ d hd; simp at hd
  | cons c t ih =>
      intro h d hd
      rw [List.map_cons] at h
      injection h with h1 h2
      rcases List.mem_cons.1 hd with rfl | hm
      · exact h1.symm
      · exact ih h2 d hm

theorem fixed_char_ok (d : Char) (h : keepOk d = d) : nameCharOk d = true := by
  by_cases hok : nameCharOk d
  · exact hok
  · have : ('_' : Char) = d := by
      rw [← h]; simp [keepOk, hok]
    rw [← this]
    decide

/-- Characters fixed by the sanitizer are exactly the allowed class. -/
theorem sanitize_fixed_chars {k : String} (h : sanitizeElementName k = k) :
    (∀ c ∈ k.data, nameCharOk c = true) ∧
      (∀ c cs, k.data = c :: cs → nameStartOk c = true) := by
  have hd := (sanitize_characterization k).2
  rw [h] at hd
  cases hk : k.data with
  | nil =>
      refine ⟨fun c hc => ?_, fun c cs hcc => ?_⟩
      · simp at hc
      · simp at hcc
  | cons c0 cs =>
      rw [hk] at hd
      simp only [List.map_cons] at hd
      injection hd with hhead htail
      have htail' : ∀ d ∈ cs, keepOk d = d := list_map_fix cs htail
      refine ⟨fun c hc => ?_, fun c cs' hcc => ?_⟩
      · rcases List.mem_cons.1 hc with rfl | hmem
        · exact (fixed_head_ok c hhead).1
        · exact fixed_char_ok c (htail' c hmem)
      · injection hcc with h1 h2
        rw [← h1]
        exact (fixed_head_ok c0 hhead).2

theorem nameCharOk_tagNameOk {c : Char} (h : nameCharOk c = true) : tagNameOk c = true := by
  unfold tagNameOk jsIsWs
  have h1 : c ≠ ' ' := by intro e; subst e; exact absurd h (by decide)
  have h2 : c ≠ '\t' := by intro e; subst e; exact absurd h (by decide)
  have h3 : c ≠ '\n' := by intro e; subst e; exact absurd h (by decide)
  have h4 : c ≠ '\r' := by intro e; subst e; exact absurd h (by decide)
  have h5 : c ≠ '/' := by intro e; subst e; exact absurd h (by decide)
  have h6 : c ≠ '>' := by intro e; subst e; exact absurd h (by decide)
  have h7 : c ≠ '=' := by intro e; subst e; exact absurd h (by decide)
  have h8 : c ≠ '"' := by intro e; subst e; exact absurd h (by decide)
  have h9 : c ≠ '<' := by intro e; subst e; exact absurd h (by decide)
  simp [h1, h2, h3, h4, h5, h6, h7, h8, h9]

/-- Unpacked consequences of `safeKeyB`. -/
theorem safeKey_facts {k : String} (h : safeKeyB k = true) :
    k.data ≠ [] ∧ sanitizeElementName k = k ∧ (∀ c ∈ k.data, tagNameOk c = true) ∧
      jsStarts k "@" = false ∧ k ≠ "#text" := by
  have hparts := h
  unfold safeKeyB at hparts
  simp only [Bool.and_eq_true, beq_iff_eq, decide_eq_true_eq] at hparts
  obtain ⟨hne, hsan⟩ := hparts
  have hchars := (sanitize_fixed_chars hsan).1
  have hdata : k.data ≠ [] := by
    intro hnil
    apply hne
    apply String.ext
    simpa using hnil
  refine ⟨hdata, hsan, fun c hc => nameCharOk_tagNameOk (hchars c hc), ?_, ?_⟩
  · cases hk : k.data with
    | nil => exact absurd hk hdata
    | cons c0 cs =>
        unfold jsStarts
        rw [hk]
        show (['@'].isPrefixOf (c0 :: cs)) = false
        by_cases he : c0 = '@'
        · subst he
          have := hchars '@' (hk ▸ List.mem_cons_self _ _)
          exact absurd this (by decide)
        · simp [List.isPrefixOf]
          exact fun e => absurd e.symm he
  · intro he
    have : '#' ∈ k.data := by
      rw [he]
      decide
    exact absurd (hchars '#' this) (by decide)

theorem specialFree_not_mem {s : String} (h : specialFree s = true) :
    '&' ∉ s.data ∧ '<' ∉ s.data ∧ '>' ∉ s.data ∧ '"' ∉ s.data ∧ '\'' ∉ s.data := by
  unfold specialFree at h
  rw [List.all_eq_true] at h
  refine ⟨fun hm => ?_, fun hm => ?_, fun hm => ?_, fun hm => ?_, fun hm => ?_⟩ <;>
    · have := h _ hm
      simp at this

theorem escapeXml_id {s : String} (h : specialFree s = true) : escapeXml s = s := by
  obtain ⟨h1, h2, h3, h4, h5⟩ := specialFree_not_mem h
  unfold escapeXml
  rw [jsReplaceChar_absent _ _ _ h1, jsReplaceChar_absent _ _ _ h2,
    jsReplaceChar_absent _ _ _ h3, jsReplaceChar_absent _ _ _ h4,
    jsReplaceChar_absent _ _ _ h5]

theorem entityDecode_id (l : List Char) (h : '&' ∉ l) : entityDecode l = l := by
  induction l with
  | nil => simp [entityDecode]
  | cons c rest ih =>
      have hc : ¬(c = '&') := fun e => h (e ▸ List.mem_cons_self c rest)
      rw [entityDecode, if_neg hc, ih (fun hm => h (List.mem_cons_of_mem c hm))]

theorem parseAttrs_gt (rest : List Char) :
    parseAttrs ('>' :: rest) =
      some (([], false), ⟨rest, by simp only [List.length_cons]; omega⟩) := by
  rw [parseAttrs]
  have hdw : List.dropWhile jsIsWs ('>' :: rest) = '>' :: rest := by
    rw [List.dropWhile_cons, show jsIsWs '>' = false from rfl]
    simp
  split
  · next r hl1 heq hh =>
      have := hdw.symm.trans heq
      simp at this
  · next r hl1 heq hh =>
      have h3 := hdw.symm.trans heq
      injection h3 with ha hb
      subst hb
      rfl
  · next c rest1 hl1 hx1 hx2 hl2 heq hh =>
      have h3 := hdw.symm.trans heq
      injection h3 with ha hb
      exact absurd ha.symm hx2
  · next hl1 heq hh =>
      have := hdw.symm.trans heq
      simp at this

theorem parseAttrs_selfclose (rest : List Char) :
    parseAttrs ('/' :: '>' :: rest) =
      some (([], true), ⟨rest, by simp only [List.length_cons]; omega⟩) := by
  rw [parseAttrs]
  have hdw : List.dropWhile jsIsWs ('/' :: '>' :: rest) = '/' :: '>' :: rest := by
    rw [List.dropWhile_cons, show jsIsWs '/' = false from rfl]
    simp
  split
  · next r hl1 heq hh =>
      have h3 := hdw.symm.trans heq
      injection h3 with ha hb
      injection hb with hc hd
      subst hd
      rfl
  · next r hl1 heq hh =>
      have h3 := hdw.symm.trans heq
      simp at h3
  · next c rest1 hl1 hx1 hx2 hl2 heq hh =>
      have h3 := hdw.symm.trans heq
      injection h3 with ha hb
      exact (hx1 rest (le_refl _) ha.symm hb.symm (proof_irrel_heq _ _)).elim
  · next hl1 heq hh =>
      have := hdw.symm.trans heq
      simp at this
/-- `takeWhile`/`dropWhile` on a run that satisfies the predicate followed by
a character that fails it. -/
theorem scan_bdry {p : Char → Bool} {a : List Char} {b : Char} (rest : List Char)
    (ha : ∀ c ∈ a, p c = true) (hb : p b = false) :
    (a ++ b :: rest).takeWhile p = a ∧ (a ++ b :: rest).dropWhile p = b :: rest := by
  induction a with
  | nil => simp [List.takeWhile_cons, List.dropWhile_cons, hb]
  | cons c a' ih =>
      have hc : p c = true := ha c (List.mem_cons_self c a')
      have ih2 := ih (fun d hd => ha d (List.mem_cons_of_mem c hd))
      simp only [List.cons_append, List.takeWhile_cons, List.dropWhile_cons, hc, if_true]
      exact ⟨by rw [ih2.1], by rw [ih2.2]⟩

/-- `parseElement` with the length certificate erased. -/
def parseElem (cs : List Char) : Option (XmlNode × List Char) :=
  (parseElement cs).map (fun p => (p.1, p.2.val))

/-- `parseNodes` with the length certificate erased. -/
def parseNds (cs : List Char) : Option (List XmlNode × List Char) :=
  (parseNodes cs).map (fun p => (p.1, p.2.val))

/-- `parseAttrs` with the length certificate erased. -/
def parseAttrs' (cs : List Char) : Option ((List (String × String) × Bool) × List Char) :=
  (parseAttrs cs).map (fun p => (p.1, p.2.val))

theorem parseAttrs'_gt (rest : List Char) :
    parseAttrs' ('>' :: rest) = some (([], false), rest) := by
  unfold parseAttrs'
  rw [parseAttrs_gt]
  rfl

theorem parseAttrs'_selfclose (rest : List Char) :
    parseAttrs' ('/' :: '>' :: rest) = some (([], true), rest) := by
  unfold parseAttrs'
  rw [parseAttrs_selfclose]
  rfl

theorem parseElem_selfclose (k : String) (hk : safeKeyB k = true) (rest : List Char) :
    parseElem ('<' :: (k.data ++ ('/' :: '>' :: rest))) = some (.elem k [] [], rest) := by
  obtain ⟨hne, hsan, hchars, hp4, hp5⟩ := safeKey_facts hk
  have hscan := scan_bdry ('>' :: rest) (fun c hc => hchars c hc)
    (show tagNameOk '/' = false from rfl)
  unfold parseElem
  rw [parseElement]
  simp only [hscan.1]
  rw [dif_neg hne]
  split
  · next heq =>
      have h2 : parseAttrs' (List.dropWhile tagNameOk (k.data ++ '/' :: '>' :: rest)) = none := by
        unfold parseAttrs'
        rw [heq]
        rfl
      rw [hscan.2, parseAttrs'_selfclose] at h2
      simp at h2
  · next attrs r hr heq =>
      have h2 : parseAttrs' (List.dropWhile tagNameOk (k.data ++ '/' :: '>' :: rest)) =
          some ((attrs, true), r) := by
        unfold parseAttrs'
        rw [heq]
        rfl
      rw [hscan.2, parseAttrs'_selfclose] at h2
      simp at h2
      obtain ⟨ha, hr2⟩ := h2
      subst ha
      subst hr2
      rfl
  · next attrs r hr heq =>
      have h2 : parseAttrs' (List.dropWhile tagNameOk (k.data ++ '/' :: '>' :: rest)) =
          some ((attrs, false), r) := by
        unfold parseAttrs'
        rw [heq]
        rfl
      rw [hscan.2, parseAttrs'_selfclose] at h2
      simp at h2

theorem parseElem_open (k : String) (hk : safeKeyB k = true) (inner rest : List Char)
    (children : List XmlNode)
    (hn : parseNds (inner ++ ('<' :: '/' :: (k.data ++ ('>' :: rest)))) =
      some (children, '<' :: '/' :: (k.data ++ ('>' :: rest)))) :
    parseElem ('<' :: (k.data ++ ('>' :: (inner ++ ('<' :: '/' :: (k.data ++ ('>' :: rest))))))) =
      some (.elem k [] children, rest) := by
  obtain ⟨hne, hsan, hchars, hp4, hp5⟩ := safeKey_facts hk
  have hscan := scan_bdry (inner ++ '<' :: '/' :: (k.data ++ ('>' :: rest)))
    (fun c hc => hchars c hc) (show tagNameOk '>' = false from rfl)
  have hscan2 := scan_bdry rest (fun c hc => hchars c hc)
    (show tagNameOk '>' = false from rfl)
  unfold parseElem
  rw [parseElement]
  simp only [hscan.1]
  rw [dif_neg hne]
  split
  · next heq =>
      have h2 : parseAttrs' (List.dropWhile tagNameOk
          (k.data ++ '>' :: (inner ++ '<' :: '/' :: (k.data ++ '>' :: rest)))) = none := by
        unfold parseAttrs'
        rw [heq]
        rfl
      rw [hscan.2, parseAttrs'_gt] at h2
      simp at h2
  · next attrs r hr heq =>
      have h2 : parseAttrs' (List.dropWhile tagNameOk
          (k.data ++ '>' :: (inner ++ '<' :: '/' :: (k.data ++ '>' :: rest)))) =
          some ((attrs, true), r) := by
        unfold parseAttrs'
        rw [heq]
        rfl
      rw [hscan.2, parseAttrs'_gt] at h2
      simp at h2
  · next attrs r hr heq =>
      have h2 : parseAttrs' (List.dropWhile tagNameOk
          (k.data ++ '>' :: (inner ++ '<' :: '/' :: (k.data ++ '>' :: rest)))) =
          some ((attrs, false), r) := by
        unfold parseAttrs'
        rw [heq]
        rfl
      rw [hscan.2, parseAttrs'_gt] at h2
      simp at h2
      obtain ⟨ha, hreq⟩ := h2
      subst ha
      split
      · next heq2 =>
          have h3 : parseNds r = none := by
            unfold parseNds
            rw [heq2]
            rfl
          rw [← hreq, hn] at h3
          simp at h3
      · next children2 r2 hr2 heq2 =>
          have h3 : parseNds r = some (children2, r2) := by
            unfold parseNds
            rw [heq2]
            rfl
          rw [← hreq, hn] at h3
          simp at h3
          obtain ⟨hc2, hr2eq⟩ := h3
          subst hc2
          subst hr2eq
          split
          · next r3 hr3 heq4 heq5 =>
              injection heq4 with hx1 hx2
              injection hx2 with hx3 hx4
              subst hx4
              rw [if_pos hscan2.1]
              split
              · rename_i r4 heq6
                have h7 := hscan2.2.symm.trans heq6
                injection h7 with hy1 hy2
                subst hy2
                rfl
              · rename_i x heq6
                exact (heq6 rest hscan2.2).elim
          · rename_i hdisj1 hdisj2
            exact (hdisj2 (k.data ++ '>' :: rest) hdisj1 rfl (proof_irrel_heq _ _)).elim

theorem parseNds_close (rest : List Char) :
    parseNds ('<' :: '/' :: rest) = some ([], '<' :: '/' :: rest) := by
  unfold parseNds
  rw [parseNodes]
  simp

theorem parseNds_cons_elem (c2 : Char) (rest : List Char) (h2 : c2 ≠ '/')
    (nd : XmlNode) (r : List Char) (he : parseElem ('<' :: c2 :: rest) = some (nd, r))
    (nds : List XmlNode) (r2 : List Char) (hn : parseNds r = some (nds, r2)) :
    parseNds ('<' :: c2 :: rest) = some (nd :: nds, r2) := by
  unfold parseNds
  rw [parseNodes]
  rw [dif_pos rfl]
  rw [if_neg (by simp [h2])]
  split
  · next heq =>
      unfold parseElem at he
      rw [heq] at he
      simp at he
  · next nd1 r1 hr1 heq =>
      have h3 : parseElem ('<' :: c2 :: rest) = some (nd1, r1) := by
        unfold parseElem
        rw [heq]
        rfl
      rw [he] at h3
      simp at h3
      obtain ⟨hnd, hrr⟩ := h3
      subst hnd
      split
      · next heq2 =>
          have h4 : parseNds r1 = none := by
            unfold parseNds
            rw [heq2]
            rfl
          rw [← hrr, hn] at h4
          simp at h4
      · next nds1 r21 hr21 heq2 =>
          have h4 : parseNds r1 = some (nds1, r21) := by
            unfold parseNds
            rw [heq2]
            rfl
          rw [← hrr, hn] at h4
          simp at h4
          obtain ⟨hh1, hh2⟩ := h4
          subst hh1
          subst hh2
          rfl

theorem parseNds_text (a : List Char) (ha : a ≠ [])
    (hane : ∀ ch ∈ a, notTagOpen ch = true) (rest' : List Char)
    (nds : List XmlNode) (r2 : List Char)
    (hn : parseNds ('<' :: rest') = some (nds, r2)) :
    parseNds (a ++ '<' :: rest') = some (.text ⟨entityDecode a⟩ :: nds, r2) := by
  cases a with
  | nil => exact absurd rfl ha
  | cons c a' =>
      have hscan := scan_bdry rest' (fun d hd => hane d hd)
        (show notTagOpen '<' = false from rfl)
      simp only [List.cons_append] at hscan
      have hc : ¬(c = '<') := by
        have := hane c (List.mem_cons_self c a')
        intro he
        rw [he] at this
        exact absurd this (by decide)
      unfold parseNds
      rw [List.cons_append, parseNodes]
      rw [dif_neg hc]
      split
      · next heq =>
          have h4 : parseNds (List.dropWhile notTagOpen (c :: (a' ++ '<' :: rest'))) = none := by
            unfold parseNds
            rw [heq]
            rfl
          rw [hscan.2, hn] at h4
          simp at h4
      · next nds1 r21 hr21 heq =>
          have h4 : parseNds (List.dropWhile notTagOpen (c :: (a' ++ '<' :: rest'))) =
              some (nds1, r21) := by
            unfold parseNds
            rw [heq]
            rfl
          rw [hscan.2, hn] at h4
          simp at h4
          obtain ⟨hh1, hh2⟩ := h4
          subst hh1
          subst hh2
          simp only [hscan.1]
          rfl

mutual

/-- The `XmlElement` tree the host parser produces for the encoding of a
round-trippable value at a given key and indentation level. -/
def treeOf : Value → String → Nat → XmlNode
  | .map es, k, ind => .elem k [] (childNodes es ind)
  | .null, k, _ => .elem k [] []
  | v, k, _ => .elem k [] [.text (jsStr v)]

/-- The child-node sequence of an encoded map element: alternating
indentation text runs and child elements, closed by the final indentation
before the end tag. -/
def childNodes : List (String × Value) → Nat → List XmlNode
  | [], ind => [.text ("\n" ++ indentStr defEnc ind)]
  | (k, v) :: rest, ind =>
      .text ("\n" ++ indentStr defEnc (ind + 1)) :: treeOf v k (ind + 1) ::
        childNodes rest ind

end

/-- The element body of an encoded value, without surrounding indentation and
newline (`entryToXml cfg v k ind = indentStr ++ coreOf v k ind ++ nl` for the
non-array values of the fragment). -/
def coreOf (v : Value) (k : String) (ind : Nat) : String :=
  match v with
  | .map es => objCore defEnc es k ind
  | w => primCore defEnc w k

/-- The concatenation of the encoded child entries of a map element. -/
def childConcat : List (String × Value) → Nat → String
  | [], _ => ""
  | (k, v) :: rest, ind => entryToXml defEnc v k (ind + 1) ++ childConcat rest ind

/-- With only safe (non-attribute, non-text-node) keys, the property loop
collects no attributes, no text flag, and the concatenated child entries. -/
theorem objBody_children (ind : Nat) :
    ∀ (es : List (String × Value)), (∀ p ∈ es, safeKeyB p.1 = true) →
      objBody defEnc ind es = ("", childConcat es ind, false) := by
  intro es
  induction es with
  | nil => intro _; rw [objBody]; rfl
  | cons p rest ih =>
      intro h
      obtain ⟨k, v⟩ := p
      obtain ⟨_, _, _, hat, htx⟩ := safeKey_facts (h (k, v) (List.mem_cons_self _ _))
      rw [objBody]
      rw [if_neg (by
        show ¬ jsStarts k defEnc.attrMark = true
        rw [show defEnc.attrMark = "@" from rfl, hat]
        simp)]
      rw [if_neg (by
        show ¬ k = defEnc.textNodeName
        rw [show defEnc.textNodeName = "#text" from rfl]
        exact htx)]
      rw [ih (fun q hq => h q (List.mem_cons_of_mem _ hq))]
      rfl

/-- Unpacked consequences of `scalarOkB`. -/
theorem scalarOk_facts {v : Value} (h : scalarOkB v = true) :
    jsStr v ≠ "" ∧ jsTrim (jsStr v) = jsStr v ∧ specialFree (jsStr v) = true ∧
      jsParseValue defDec (jsStr v) = v := by
  cases v with
  | null => simp [scalarOkB] at h
  | list xs => simp [scalarOkB] at h
  | map es => simp [scalarOkB] at h
  | str s =>
      unfold scalarOkB at h
      simp only [Bool.and_eq_true, beq_iff_eq, decide_eq_true_eq] at h
      obtain ⟨⟨⟨h1, h2⟩, h3⟩, h4⟩ := h
      refine ⟨h1, h2, h3, ?_⟩
      show jsParseValue defDec s = .str s
      cases hp : jsParseValue defDec s <;> rw [hp] at h4 <;> simp at h4
      rw [h4]
  | num q =>
      unfold scalarOkB at h
      simp only [Bool.and_eq_true, beq_iff_eq, decide_eq_true_eq] at h
      obtain ⟨⟨⟨h1, h2⟩, h3⟩, h4⟩ := h
      refine ⟨h1, h2, h3, ?_⟩
      show jsParseValue defDec (ratToJsString q) = .num q
      cases hp : jsParseValue defDec (ratToJsString q) <;> rw [hp] at h4 <;> simp at h4
      rw [h4]
  | bool b =>
      unfold scalarOkB at h
      cases b
      · refine ⟨by decide, by decide, by decide, ?_⟩
        show jsParseValue defDec "false" = .bool false
        rfl
      · refine ⟨by decide, by decide, by decide, ?_⟩
        show jsParseValue defDec "true" = .bool true
        rfl

theorem indentStr_def (n : Nat) : indentStr defEnc n = ⟨List.replicate (2 * n) ' '⟩ := rfl

theorem indentStr_chars {c : Char} {n : Nat} (h : c ∈ (indentStr defEnc n).data) : c = ' ' := by
  rw [indentStr_def] at h
  exact (List.eq_of_mem_replicate h)

/-- The encoded element body of a safe-keyed value starts with `<` followed
by the key. -/
theorem coreOf_shape (v : Value) (k : String) (ind : Nat) (hk : safeKeyB k = true) :
    ∃ t, (coreOf v k ind).data = '<' :: (k.data ++ t) := by
  obtain ⟨hne, hsan, _, _, _⟩ := safeKey_facts hk
  cases v with
  | map es =>
      obtain ⟨t, ht⟩ := objCore_head defEnc es k ind
      refine ⟨t.data, ?_⟩
      show (objCore defEnc es k ind).data = '<' :: (k.data ++ t.data)
      rw [ht, hsan]
      simp
  | null =>
      refine ⟨"/>".data, ?_⟩
      show (primCore defEnc .null k).data = _
      unfold primCore
      rw [hsan]
      simp
  | str s =>
      refine ⟨(">" ++ escapeXml (jsStr (.str s)) ++ "</" ++ k ++ ">").data, ?_⟩
      show (primCore defEnc (.str s) k).data = _
      unfold primCore
      rw [hsan]
      simp
  | num q =>
      refine ⟨(">" ++ escapeXml (jsStr (.num q)) ++ "</" ++ k ++ ">").data, ?_⟩
      show (primCore defEnc (.num q) k).data = _
      unfold primCore
      rw [hsan]
      simp
  | bool b =>
      refine ⟨(">" ++ escapeXml (jsStr (.bool b)) ++ "</" ++ k ++ ">").data, ?_⟩
      show (primCore defEnc (.bool b) k).data = _
      unfold primCore
      rw [hsan]
      simp
  | list xs =>
      refine ⟨(">" ++ escapeXml (jsStr (.list xs)) ++ "</" ++ k ++ ">").data, ?_⟩
      show (primCore defEnc (.list xs) k).data = _
      unfold primCore
      rw [hsan]
      simp

/-- Parsing the encoding of a non-null scalar element. -/
theorem parseElem_scalar (k : String) (hk : safeKeyB k = true) (v : Value)
    (rest : List Char)
    (hne : jsStr v ≠ "") (hsf : specialFree (jsStr v) = true)
    (hcore : primCore defEnc v k = "<" ++ k ++ ">" ++ jsStr v ++ "</" ++ k ++ ">") :
    parseElem ((primCore defEnc v k).data ++ rest) =
      some (.elem k [] [.text (jsStr v)], rest) := by
  have hdata : (primCore defEnc v k).data ++ rest =
      '<' :: (k.data ++ ('>' :: ((jsStr v).data ++ ('<' :: '/' :: (k.data ++ ('>' :: rest)))))) := by
    rw [hcore]
    simp
  rw [hdata]
  have hamp : '&' ∉ (jsStr v).data := (specialFree_not_mem hsf).1
  have hlt : '<' ∉ (jsStr v).data := (specialFree_not_mem hsf).2.1
  have htext : parseNds ((jsStr v).data ++ '<' :: ('/' :: (k.data ++ ('>' :: rest)))) =
      some ([.text (jsStr v)], '<' :: '/' :: (k.data ++ ('>' :: rest))) := by
    have := parseNds_text (jsStr v).data
      (by intro hz; exact hne (by apply String.ext; simpa using hz))
      (by
        intro ch hch
        unfold notTagOpen
        simp
        intro he
        rw [he] at hch
        exact hlt hch)
      ('/' :: (k.data ++ ('>' :: rest))) [] ('<' :: '/' :: (k.data ++ ('>' :: rest)))
      (parseNds_close _)
    rw [entityDecode_id _ hamp] at this
    simpa using this
  exact parseElem_open k hk (jsStr v).data rest [.text (jsStr v)] (by simpa using htext)

/-- For the non-array values of the fragment, `entryToXml` is indentation,
core element, newline. -/
theorem entryToXml_rt {v : Value} (hrt : RTVal v) (k : String) (ind : Nat) :
    entryToXml defEnc v k ind = indentStr defEnc ind ++ coreOf v k ind ++ nlStr defEnc := by
  cases hrt with
  | null => rw [entryToXml] <;> (first | rfl | simp)
  | str s _ => rw [entryToXml] <;> (first | rfl | simp)
  | num q _ => rw [entryToXml] <;> (first | rfl | simp)
  | bool b _ => rw [entryToXml] <;> (first | rfl | simp)
  | map es _ _ _ _ => rw [entryToXml]; rfl

theorem parseElem_coreOf {v : Value} (hrt : RTVal v) :
    ∀ (k : String), safeKeyB k = true → ∀ (ind : Nat) (rest : List Char),
      parseElem ((coreOf v k ind).data ++ rest) = some (treeOf v k ind, rest) := by
  induction hrt with
  | null =>
      intro k hk ind rest
      obtain ⟨hne, hsan, _, _, _⟩ := safeKey_facts hk
      have hdata : (coreOf .null k ind).data ++ rest =
          '<' :: (k.data ++ ('/' :: '>' :: rest)) := by
        show (primCore defEnc .null k).data ++ rest = _
        unfold primCore
        rw [hsan]
        simp
      rw [hdata, parseElem_selfclose k hk rest]
      simp [treeOf]
  | str s hs =>
      intro k hk ind rest
      obtain ⟨hne, hsan, _, _, _⟩ := safeKey_facts hk
      obtain ⟨hone, htrim, hsf, hparse⟩ := scalarOk_facts hs
      have hcore : primCore defEnc (.str s) k =
          "<" ++ k ++ ">" ++ jsStr (.str s) ++ "</" ++ k ++ ">" := by
        unfold primCore
        rw [hsan]
        show "<" ++ k ++ ">" ++ escapeXml (jsStr (.str s)) ++ "</" ++ k ++ ">" = _
        rw [escapeXml_id hsf]
      show parseElem ((primCore defEnc (.str s) k).data ++ rest) = _
      rw [parseElem_scalar k hk (.str s) rest hone hsf hcore]
      simp [treeOf]
  | num q hs =>
      intro k hk ind rest
      obtain ⟨hne, hsan, _, _, _⟩ := safeKey_facts hk
      obtain ⟨hone, htrim, hsf, hparse⟩ := scalarOk_facts hs
      have hcore : primCore defEnc (.num q) k =
          "<" ++ k ++ ">" ++ jsStr (.num q) ++ "</" ++ k ++ ">" := by
        unfold primCore
        rw [hsan]
        show "<" ++ k ++ ">" ++ escapeXml (jsStr (.num q)) ++ "</" ++ k ++ ">" = _
        rw [escapeXml_id hsf]
      show parseElem ((primCore defEnc (.num q) k).data ++ rest) = _
      rw [parseElem_scalar k hk (.num q) rest hone hsf hcore]
      simp [treeOf]
  | bool b hs =>
      intro k hk ind rest
      obtain ⟨hne, hsan, _, _, _⟩ := safeKey_facts hk
      obtain ⟨hone, htrim, hsf, hparse⟩ := scalarOk_facts hs
      have hcore : primCore defEnc (.bool b) k =
          "<" ++ k ++ ">" ++ jsStr (.bool b) ++ "</" ++ k ++ ">" := by
        unfold primCore
        rw [hsan]
        show "<" ++ k ++ ">" ++ escapeXml (jsStr (.bool b)) ++ "</" ++ k ++ ">" = _
        rw [escapeXml_id hsf]
      show parseElem ((primCore defEnc (.bool b) k).data ++ rest) = _
      rw [parseElem_scalar k hk (.bool b) rest hone hsf hcore]
      simp [treeOf]
  | map es hesne hnodup hkeys hrts ih =>
      intro k hk ind rest
      obtain ⟨hkne, hsan, _, _, _⟩ := safeKey_facts hk
      have hindne : ∀ m : Nat, ('\n' :: (indentStr defEnc m).data) ≠ ([] : List Char) := by
        intro m; simp
      have hindok : ∀ (m : Nat), ∀ ch ∈ ('\n' :: (indentStr defEnc m).data),
          notTagOpen ch = true := by
        intro m ch hch
        rcases List.mem_cons.1 hch with rfl | hm
        · decide
        · rw [indentStr_chars hm]; decide
      have hinddec : ∀ m : Nat, entityDecode ('\n' :: (indentStr defEnc m).data) =
          '\n' :: (indentStr defEnc m).data := by
        intro m
        apply entityDecode_id
        intro hm
        rcases List.mem_cons.1 hm with h | hm2
        · exact absurd h (by decide)
        · exact absurd (indentStr_chars hm2) (by decide)
      have hindstr : ∀ m : Nat, (⟨'\n' :: (indentStr defEnc m).data⟩ : String) =
          "\n" ++ indentStr defEnc m := by
        intro m
        apply String.ext
        simp
      have L2 : ∀ es' : List (String × Value), (∀ p ∈ es', p ∈ es) →
          ∀ rest'' : List Char,
            parseNds ('\n' :: ((childConcat es' ind).data ++
                ((indentStr defEnc ind).data ++ ('<' :: '/' :: rest'')))) =
              some (childNodes es' ind, '<' :: '/' :: rest'') := by
        intro es'
        induction es' with
        | nil =>
            intro _ rest''
            have hbase := parseNds_text ('\n' :: (indentStr defEnc ind).data)
              (hindne ind) (hindok ind) ('/' :: rest'') [] ('<' :: '/' :: rest'')
              (parseNds_close _)
            rw [hinddec ind, hindstr ind] at hbase
            rw [childNodes]
            show parseNds ('\n' :: (("" : String).data ++
                ((indentStr defEnc ind).data ++ ('<' :: '/' :: rest'')))) = _
            simp only [List.cons_append, List.append_assoc] at hbase ⊢
            simpa using hbase
        | cons e tl ihl =>
            intro hsub rest''
            obtain ⟨k1, v1⟩ := e
            have hmem : (k1, v1) ∈ es := hsub _ (List.mem_cons_self _ _)
            have hk1 : safeKeyB k1 = true := hkeys _ hmem
            have hrt1 : RTVal v1 := hrts _ hmem
            obtain ⟨hk1ne, hk1san, hk1chars, _, _⟩ := safeKey_facts hk1
            obtain ⟨t, ht⟩ := coreOf_shape v1 k1 (ind + 1) hk1
            have htl := ihl (fun p hp => hsub p (List.mem_cons_of_mem _ hp)) rest''
            cases hkd : k1.data with
            | nil => exact absurd hkd hk1ne
            | cons c2 ktl =>
                have hc2 : ¬ (c2 = '/') := by
                  have hco := hk1chars c2 (by rw [hkd]; exact List.mem_cons_self _ _)
                  intro he
                  rw [he] at hco
                  exact absurd hco (by decide)
                have hel := ih (k1, v1) hmem k1 hk1 (ind + 1)
                  ('\n' :: ((childConcat tl ind).data ++
                    ((indentStr defEnc ind).data ++ ('<' :: '/' :: rest''))))
                rw [ht, hkd] at hel
                simp only [List.cons_append, List.append_assoc] at hel
                have hcons := parseNds_cons_elem c2
                  (ktl ++ (t ++ ('\n' :: ((childConcat tl ind).data ++
                    ((indentStr defEnc ind).data ++ ('<' :: '/' :: rest''))))))
                  hc2 (treeOf v1 k1 (ind + 1))
                  ('\n' :: ((childConcat tl ind).data ++
                    ((indentStr defEnc ind).data ++ ('<' :: '/' :: rest''))))
                  hel (childNodes tl ind) ('<' :: '/' :: rest'') htl
                have htext := parseNds_text ('\n' :: (indentStr defEnc (ind + 1)).data)
                  (hindne (ind + 1)) (hindok (ind + 1))
                  (c2 :: (ktl ++ (t ++ ('\n' :: ((childConcat tl ind).data ++
                    ((indentStr defEnc ind).data ++ ('<' :: '/' :: rest'')))))))
                  (treeOf v1 k1 (ind + 1) :: childNodes tl ind) ('<' :: '/' :: rest'')
                  hcons
                rw [hinddec (ind + 1), hindstr (ind + 1)] at htext
                rw [childNodes]
                show parseNds ('\n' :: (((entryToXml defEnc v1 k1 (ind + 1) ++
                    childConcat tl ind).data) ++
                    ((indentStr defEnc ind).data ++ ('<' :: '/' :: rest'')))) = _
                rw [entryToXml_rt hrt1]
                have hnl : nlStr defEnc = "\n" := rfl
                rw [hnl]
                simp only [String.data_append, List.cons_append, List.append_assoc]
                rw [ht, hkd]
                simp only [List.cons_append, List.append_assoc] at htext ⊢
                exact htext
      have hcc_ne : ¬ (childConcat es ind = "") := by
        cases es with
        | nil => exact absurd rfl hesne
        | cons e1 tl =>
            obtain ⟨k1, v1⟩ := e1
            have hmem : (k1, v1) ∈ (k1, v1) :: tl := List.mem_cons_self _ _
            have hrt1 : RTVal v1 := hrts _ hmem
            have hk1 : safeKeyB k1 = true := hkeys _ hmem
            obtain ⟨t, ht⟩ := coreOf_shape v1 k1 (ind + 1) hk1
            intro hz
            have hlt : '<' ∈ (childConcat ((k1, v1) :: tl) ind).data := by
              show '<' ∈ (entryToXml defEnc v1 k1 (ind + 1) ++ childConcat tl ind).data
              rw [entryToXml_rt hrt1]
              simp [ht]
            rw [hz] at hlt
            simp at hlt
      have hbody := objBody_children ind es hkeys
      have hobj : objCore defEnc es k ind =
          "<" ++ k ++ ">" ++ ("\n" ++ childConcat es ind ++ indentStr defEnc ind) ++
            "</" ++ k ++ ">" := by
        rw [objCore, hbody, hsan]
        simp only [hcc_ne]
        apply String.ext
        simp [nlStr, defEnc]
      have hinner := L2 es (fun p hp => hp) (k.data ++ '>' :: rest)
      have hopen := parseElem_open k hk
        ('\n' :: ((childConcat es ind).data ++ (indentStr defEnc ind).data)) rest
        (childNodes es ind)
        (by simp only [List.cons_append, List.append_assoc]; exact hinner)
      have hstream : (coreOf (Value.map es) k ind).data ++ rest =
          '<' :: (k.data ++ ('>' :: (('\n' :: ((childConcat es ind).data ++
            (indentStr defEnc ind).data)) ++ ('<' :: '/' :: (k.data ++ ('>' :: rest)))))) := by
        show (objCore defEnc es k ind).data ++ rest = _
        rw [hobj]
        simp
      rw [hstream, hopen]
      rw [treeOf]

theorem jsTrim_all_ws (s : String) (h : ∀ c ∈ s.data, jsIsWs c = true) :
    jsTrim s = "" := by
  unfold jsTrim
  have h1 : s.data.dropWhile jsIsWs = [] := by
    rw [List.dropWhile_eq_nil_iff]
    exact fun c hc => h c hc
  rw [h1]
  rfl

theorem jsTrim_nl_indent (m : Nat) : jsTrim ("\n" ++ indentStr defEnc m) = "" := by
  apply jsTrim_all_ws
  intro c hc
  have hc2 : c ∈ '\n' :: (indentStr defEnc m).data := by simpa using hc
  rcases List.mem_cons.1 hc2 with rfl | hm
  · decide
  · rw [indentStr_chars hm]; decide

theorem jsGet_absent (acc : List (String × Value)) (key : String)
    (h : ∀ p ∈ acc, ¬ (p.1 = key)) : jsGet acc key = none := by
  unfold jsGet
  rw [List.find?_eq_none.2 (by intro p hp; simpa using h p hp)]
  rfl

theorem jsSet_absent (acc : List (String × Value)) (key : String) (v : Value)
    (h : ∀ p ∈ acc, ¬ (p.1 = key)) : jsSet acc key v = acc ++ [(key, v)] := by
  unfold jsSet
  rw [List.find?_eq_none.2 (by intro p hp; simpa using h p hp)]
  rfl

/-- The children of the parse tree of an encoded value. -/
def kidsOf : Value → Nat → List XmlNode
  | .map es, ind => childNodes es ind
  | .null, _ => []
  | v, _ => [.text (jsStr v)]

theorem treeOf_kids (v : Value) (k : String) (ind : Nat) :
    treeOf v k ind = .elem k [] (kidsOf v ind) := by
  cases v <;> rw [treeOf] <;> (first | rfl | simp [kidsOf])

theorem childLoop_single_text (t : String) (h1 : jsTrim t = t) (h2 : t ≠ "") :
    childLoop defDec [] [.text t] = jsParseValue defDec t := by
  rw [childLoop]
  simp [h1, h2]

theorem decode_kids {v : Value} (hrt : RTVal v) :
    ∀ (n : String) (ind : Nat), xmlElemToJson defDec n [] (kidsOf v ind) = v := by
  induction hrt with
  | null =>
      intro n ind
      show xmlElemToJson defDec n [] [] = .null
      rw [xmlElemToJson, attrPass_nil, childLoop]
      rfl
  | str s hs =>
      intro n ind
      obtain ⟨hone, htrim, _, hparse⟩ := scalarOk_facts hs
      show xmlElemToJson defDec n [] [.text (jsStr (.str s))] = .str s
      rw [xmlElemToJson, attrPass_nil, childLoop_single_text _ htrim hone, hparse]
  | num q hs =>
      intro n ind
      obtain ⟨hone, htrim, _, hparse⟩ := scalarOk_facts hs
      show xmlElemToJson defDec n [] [.text (jsStr (.num q))] = .num q
      rw [xmlElemToJson, attrPass_nil, childLoop_single_text _ htrim hone, hparse]
  | bool b hs =>
      intro n ind
      obtain ⟨hone, htrim, _, hparse⟩ := scalarOk_facts hs
      show xmlElemToJson defDec n [] [.text (jsStr (.bool b))] = .bool b
      rw [xmlElemToJson, attrPass_nil, childLoop_single_text _ htrim hone, hparse]
  | map es hesne hnodup hkeys hrts ih =>
      intro n ind
      show xmlElemToJson defDec n [] (childNodes es ind) = .map es
      rw [xmlElemToJson, attrPass_nil]
      have D2 : ∀ (es' : List (String × Value)), (∀ p ∈ es', p ∈ es) →
          ∀ (acc : List (String × Value)),
          ((acc ++ es').map Prod.fst).Nodup →
          (acc = [] → es' ≠ []) →
          childLoop defDec acc (childNodes es' ind) = .map (acc ++ es') := by
        intro es'
        induction es' with
        | nil =>
            intro _ acc _ hne
            have haccne : ¬ (acc = []) := fun hz => (hne hz) rfl
            rw [childNodes, childLoop]
            simp only [jsTrim_nl_indent ind]
            simp only [ne_eq, not_true_eq_false, if_false]
            rw [childLoop]
            have : acc.isEmpty = false := by
              cases acc with
              | nil => exact absurd rfl haccne
              | cons a b => rfl
            rw [this]
            simp
        | cons e tl ihl =>
            intro hsub acc hnd hne
            obtain ⟨k1, v1⟩ := e
            have hmem : (k1, v1) ∈ es := hsub _ (List.mem_cons_self _ _)
            have hrt1 : RTVal v1 := hrts _ hmem
            have hget : jsGet acc k1 = none := by
              apply jsGet_absent
              intro p hp hpk
              have : (acc.map Prod.fst ++ (k1 :: tl.map Prod.fst)).Nodup := by
                simpa using hnd
              rw [List.nodup_append] at this
              exact this.2.2 (List.mem_map_of_mem _ hp) (by simp [hpk])
            have hset : jsSet acc k1 v1 = acc ++ [(k1, v1)] := by
              apply jsSet_absent
              intro p hp hpk
              have : (acc.map Prod.fst ++ (k1 :: tl.map Prod.fst)).Nodup := by
                simpa using hnd
              rw [List.nodup_append] at this
              exact this.2.2 (List.mem_map_of_mem _ hp) (by simp [hpk])
            have hiv := ih (k1, v1) hmem k1 (ind + 1)
            rw [childNodes, childLoop]
            simp only [jsTrim_nl_indent (ind + 1)]
            simp only [ne_eq, not_true_eq_false, if_false]
            rw [treeOf_kids v1 k1 (ind + 1), childLoop]
            simp only [hiv, hget, hset]
            have htl := ihl (fun p hp => hsub p (List.mem_cons_of_mem _ hp))
              (acc ++ [(k1, v1)])
              (by simpa [List.append_assoc] using hnd)
              (fun hz => by simp at hz)
            rw [htl]
            simp
      have := D2 es (fun p hp => hp) [] (by simpa using hnodup) (fun _ => hesne)
      simpa using this

theorem xmlRoundTrip_single (k : String) (es : List (String × Value))
    (hk : safeKeyB k = true) (hrt : RTVal (.map es)) :
    xmlRoundTrip (.map [(k, .map es)]) = some (.map es) := by
  obtain ⟨t, ht⟩ := coreOf_shape (.map es) k 0 hk
  have hcore : (objCore defEnc es k 0).data = '<' :: (k.data ++ t) := ht
  have henc : jsonToXml defEnc (.map [(k, .map es)]) =
      .ok (xmlDeclOf defEnc ++ objectToXml defEnc es k 0) := rfl
  have hsdata : (xmlDeclOf defEnc ++ objectToXml defEnc es k 0).data =
      ("<?xml version=\"1.0\" encoding=\"UTF-8\"?>").data ++
        ('\n' :: ((objCore defEnc es k 0).data ++ ['\n'])) := by
    show (xmlDeclOf defEnc).data ++ (objectToXml defEnc es k 0).data = _
    have h1 : (xmlDeclOf defEnc).data =
        ("<?xml version=\"1.0\" encoding=\"UTF-8\"?>").data ++ ['\n'] := by rfl
    have h2 : (objectToXml defEnc es k 0).data =
        (objCore defEnc es k 0).data ++ ['\n'] := by
      show (indentStr defEnc 0 ++ objCore defEnc es k 0 ++ nlStr defEnc).data = _
      simp
      rfl
    rw [h1, h2]
    simp
  have hpe := parseElem_coreOf hrt k hk 0 ['\n']
  have hpe2 : parseElem ((objCore defEnc es k 0).data ++ ['\n']) =
      some (treeOf (.map es) k 0, ['\n']) := hpe
  have hpref : List.isPrefixOf ['<', '?']
      (("<?xml version=\"1.0\" encoding=\"UTF-8\"?>").data ++
        ('\n' :: ((objCore defEnc es k 0).data ++ ['\n']))) = true := rfl
  have hdrop : dropDecl (("<?xml version=\"1.0\" encoding=\"UTF-8\"?>").data ++
      ('\n' :: ((objCore defEnc es k 0).data ++ ['\n']))) =
      '\n' :: ((objCore defEnc es k 0).data ++ ['\n']) := rfl
  have hdw : List.dropWhile jsIsWs ('\n' :: ((objCore defEnc es k 0).data ++ ['\n'])) =
      (objCore defEnc es k 0).data ++ ['\n'] := by
    rw [List.dropWhile_cons_of_pos (by decide)]
    rw [hcore]
    rw [List.cons_append]
    rw [List.dropWhile_cons_of_neg (by decide)]
  have hcs2 : List.dropWhile jsIsWs
      (if List.isPrefixOf ['<', '?'] ((xmlDeclOf defEnc ++ objectToXml defEnc es k 0).data) = true
       then dropDecl ((xmlDeclOf defEnc ++ objectToXml defEnc es k 0).data)
       else (xmlDeclOf defEnc ++ objectToXml defEnc es k 0).data) =
      (objCore defEnc es k 0).data ++ ['\n'] := by
    rw [hsdata, if_pos hpref, hdrop]
    exact hdw
  have hdoc : parseDoc (xmlDeclOf defEnc ++ objectToXml defEnc es k 0) =
      some (treeOf (.map es) k 0) := by
    unfold parseDoc
    simp only []
    split
    · next nd r hr heq =>
        have h5 : parseElem ((objCore defEnc es k 0).data ++ ['\n']) = some (nd, r) := by
          rw [← hcs2]
          exact congrArg (Option.map (fun p => (p.1, p.2.val))) heq
        rw [hpe2] at h5
        simp at h5
        obtain ⟨h6, h7⟩ := h5
        subst h6
        subst h7
        rfl
    · next heq =>
        have h5 : parseElem ((objCore defEnc es k 0).data ++ ['\n']) = none := by
          rw [← hcs2]
          exact congrArg (Option.map (fun p => (p.1, p.2.val))) heq
        rw [hpe2] at h5
        simp at h5
  have hdec : xmlDecodeText defDec (xmlDeclOf defEnc ++ objectToXml defEnc es k 0) =
      some (.map es) := by
    unfold xmlDecodeText
    rw [hdoc, treeOf_kids]
    show some (xmlElemToJson defDec k [] (kidsOf (.map es) 0)) = _
    rw [decode_kids hrt k 0]
  unfold xmlRoundTrip
  rw [henc]
  exact hdec

/-- **C1** (corrected).  For a map with a single root key whose value is a
round-trippable map (nested maps with sanitization-fixed keys and null or
self-reprinting scalar leaves), encoding with `jsonToXml` and decoding the
produced text yields the value *under* the root key — the root key itself is
dropped, because `xmlToJson` is applied to the document element. -/
theorem xmlRoundTrip_single_root (k : String) (es : List (String × Value))
    (hk : safeKeyB k = true) (hrt : RTVal (.map es)) :
    xmlRoundTrip (.map [(k, .map es)]) = some (.map es) :=
  xmlRoundTrip_single k es hk hrt

/-- Counterexample to the claimed identity round trip: the encoded form of
`{"user": {"name": "Ann"}}` decodes to `{"name": "Ann"}`, not to the original
value — the single root key is lost. -/
theorem xmlRoundTrip_not_identity :
    xmlRoundTrip (.map [("user", .map [("name", .str "Ann")])]) =
      some (.map [("name", .str "Ann")]) ∧
    Value.map [("name", .str "Ann")] ≠
      Value.map [("user", .map [("name", .str "Ann")])] := by
  constructor
  · exact xmlRoundTrip_single "user" [("name", .str "Ann")] (by decide)
      (RTVal.map _ (by simp) (by simp)
        (by intro p hp; simp at hp; subst hp; decide)
        (by intro p hp; simp at hp; subst hp; exact RTVal.str "Ann" (by decide)))
  · simp

theorem xmlRoundTrip_single_root_witness :
    safeKeyB "user" = true ∧
      xmlRoundTrip (.map [("user", .map [("name", .str "Ann")])]) =
        some (.map [("name", .str "Ann")]) :=
  ⟨by decide, xmlRoundTrip_single_root "user" [("name", .str "Ann")] (by decide)
    (RTVal.map _ (by simp) (by simp)
      (by intro p hp; simp at hp; subst hp; decide)
      (by intro p hp; simp at hp; subst hp; exact RTVal.str "Ann" (by decide)))⟩
